import Mathlib

/-!
Verification of the DuckDB retail warehouse pipeline.

The SQL/pandas transforms of `src/models/dimensions.py`, `src/models/facts.py`
and `src/ingestion/holidays_data.py` are shallowly embedded as pure functions
over lists of typed rows.  Tables are lists of row structures, SQL `NULL` is
`Option`, numeric columns are `Int`/`ℚ`, and SQL dates are a proleptic
Gregorian `Date` structure mirroring Python's `datetime.date` arithmetic.
`INNER JOIN`/`LEFT JOIN` are embedded with their multiplicity semantics
(`List.bind` over both operands), `GROUP BY` as grouping on the deduplicated
list of keys, and SQL three-valued `NULL` comparison semantics are kept
(`NULL = x` never matches a join).
-/

/-! ## Calendar arithmetic (model of Python `datetime.date`) -/

/-- A proleptic Gregorian calendar date (year counted from 0). -/
structure Date where
  year : Nat
  month : Nat
  day : Nat
deriving DecidableEq, Repr

/-- Gregorian leap-year rule, as used by Python `datetime`. -/
def isLeap (y : Nat) : Bool :=
  (y % 4 == 0 && y % 100 != 0) || y % 400 == 0

/-- Number of days in month `m` of year `y` (months are 1-based). -/
def daysInMonth (y m : Nat) : Nat :=
  if m = 2 then (if isLeap y then 29 else 28)
  else if m = 4 ∨ m = 6 ∨ m = 9 ∨ m = 11 then 30
  else 31

/-- Number of days of year `y` that precede the first day of month `m`. -/
def daysBeforeMonth (y : Nat) : Nat → Nat
  | 0 => 0
  | m + 1 => if m = 0 then 0 else daysBeforeMonth y m + daysInMonth y m

/-- Number of days in year `y`. -/
def daysInYear (y : Nat) : Nat := if isLeap y then 366 else 365

/-- Number of days strictly before year `y` (from year 0). -/
def daysBeforeYear : Nat → Nat
  | 0 => 0
  | y + 1 => daysBeforeYear y + daysInYear y

/-- Day ordinal of a date: consecutive calendar days have consecutive
ordinals, mirroring `datetime.date.toordinal`. -/
def Date.ordinal (d : Date) : Nat :=
  daysBeforeYear d.year + daysBeforeMonth d.year d.month + d.day

/-- A structurally well-formed calendar date (the only dates Python's
`datetime.date` can represent). -/
def Date.valid (d : Date) : Prop :=
  1 ≤ d.month ∧ d.month ≤ 12 ∧ 1 ≤ d.day ∧ d.day ≤ daysInMonth d.year d.month

instance (d : Date) : Decidable d.valid := by
  unfold Date.valid; infer_instance

/-- The day after `d`, mirroring `d + timedelta(days=1)`. -/
def Date.next (d : Date) : Date :=
  if d.day < daysInMonth d.year d.month then ⟨d.year, d.month, d.day + 1⟩
  else if d.month < 12 then ⟨d.year, d.month + 1, 1⟩
  else ⟨d.year + 1, 1, 1⟩

/-- The day before `d`, mirroring `d - timedelta(days=1)`. -/
def Date.pred (d : Date) : Date :=
  if 1 < d.day then ⟨d.year, d.month, d.day - 1⟩
  else if 1 < d.month then ⟨d.year, d.month - 1, daysInMonth d.year (d.month - 1)⟩
  else ⟨d.year - 1, 12, 31⟩

theorem daysInMonth_pos (y m : Nat) : 1 ≤ daysInMonth y m := by
  unfold daysInMonth
  split
  · split <;> omega
  · split <;> omega

theorem daysInMonth_le (y m : Nat) : daysInMonth y m ≤ 31 := by
  unfold daysInMonth
  split
  · split <;> omega
  · split <;> omega

theorem daysBeforeMonth_succ (y m : Nat) (hm : 1 ≤ m) :
    daysBeforeMonth y (m + 1) = daysBeforeMonth y m + daysInMonth y m := by
  have : m ≠ 0 := by omega
  simp [daysBeforeMonth, this]

theorem daysBeforeMonth_mono (y m m' : Nat) (h1 : 1 ≤ m) (h : m ≤ m') :
    daysBeforeMonth y m ≤ daysBeforeMonth y m' := by
  induction m' with
  | zero => omega
  | succ k ih =>
    rcases Nat.lt_or_ge m (k + 1) with hlt | hge
    · have hk : 1 ≤ k := by omega
      have := ih (by omega)
      rw [daysBeforeMonth_succ y k hk]
      omega
    · have hmk : m = k + 1 := by omega
      subst hmk
      exact le_refl _

theorem daysBeforeMonth_13 (y : Nat) : daysBeforeMonth y 13 = daysInYear y := by
  cases h : isLeap y <;>
    simp [daysBeforeMonth, daysInMonth, daysInYear, h]

/-- Within a valid date, the in-year offset is at most the year length. -/
theorem inYear_le (d : Date) (hv : d.valid) :
    daysBeforeMonth d.year d.month + d.day ≤ daysInYear d.year := by
  obtain ⟨h1, h2, h3, h4⟩ := hv
  have hstep := daysBeforeMonth_succ d.year d.month h1
  have hmono := daysBeforeMonth_mono d.year (d.month + 1) 13 (by omega) (by omega)
  have h13 := daysBeforeMonth_13 d.year
  omega

theorem daysBeforeYear_mono {y y' : Nat} (h : y ≤ y') :
    daysBeforeYear y ≤ daysBeforeYear y' := by
  induction y' with
  | zero =>
    have hy : y = 0 := by omega
    subst hy
    exact le_refl _
  | succ k ih =>
    rcases Nat.lt_or_ge y (k + 1) with hlt | hge
    · have h1 := ih (by omega)
      have h2 : daysBeforeYear (k + 1) = daysBeforeYear k + daysInYear k := rfl
      omega
    · have hyk : y = k + 1 := by omega
      subst hyk
      exact le_refl _

/-- A valid date's ordinal lies strictly inside its year's span of ordinals. -/
theorem ordinal_year_bounds (d : Date) (hv : d.valid) :
    daysBeforeYear d.year < d.ordinal ∧ d.ordinal ≤ daysBeforeYear (d.year + 1) := by
  obtain ⟨h1, h2, h3, h4⟩ := hv
  have hin := inYear_le d ⟨h1, h2, h3, h4⟩
  have hy : daysBeforeYear (d.year + 1) = daysBeforeYear d.year + daysInYear d.year := rfl
  unfold Date.ordinal
  omega

/-- `Date.ordinal` is injective on valid dates. -/
theorem ordinal_inj {d₁ d₂ : Date} (h₁ : d₁.valid) (h₂ : d₂.valid)
    (h : d₁.ordinal = d₂.ordinal) : d₁ = d₂ := by
  -- First the years agree, then the months, then the days.
  have hyear : d₁.year = d₂.year := by
    by_contra hne
    rcases Nat.lt_or_ge d₁.year d₂.year with hlt | hge
    · have b₁ := ordinal_year_bounds d₁ h₁
      have b₂ := ordinal_year_bounds d₂ h₂
      have := daysBeforeYear_mono (show d₁.year + 1 ≤ d₂.year by omega)
      omega
    · have hlt : d₂.year < d₁.year := by omega
      have b₁ := ordinal_year_bounds d₁ h₁
      have b₂ := ordinal_year_bounds d₂ h₂
      have := daysBeforeYear_mono (show d₂.year + 1 ≤ d₁.year by omega)
      omega
  have hmonth : d₁.month = d₂.month := by
    by_contra hne
    obtain ⟨m11, m12, m13, m14⟩ := h₁
    obtain ⟨m21, m22, m23, m24⟩ := h₂
    unfold Date.ordinal at h
    rw [hyear] at h
    rcases Nat.lt_or_ge d₁.month d₂.month with hlt | hge
    · have hstep := daysBeforeMonth_succ d₂.year d₁.month (by omega)
      have hmono := daysBeforeMonth_mono d₂.year (d₁.month + 1) d₂.month
        (by omega) (by omega)
      rw [hyear] at m14
      omega
    · have hlt : d₂.month < d₁.month := by omega
      have hstep := daysBeforeMonth_succ d₂.year d₂.month (by omega)
      have hmono := daysBeforeMonth_mono d₂.year (d₂.month + 1) d₁.month
        (by omega) (by omega)
      omega
  have hday : d₁.day = d₂.day := by
    unfold Date.ordinal at h
    rw [hyear, hmonth] at h
    omega
  cases d₁; cases d₂
  simp_all

/-- Stepping to the next day preserves validity. -/
theorem next_valid {d : Date} (hv : d.valid) : d.next.valid := by
  obtain ⟨h1, h2, h3, h4⟩ := hv
  unfold Date.next
  split
  · rename_i hd
    simp only [Date.valid]
    exact ⟨h1, h2, by omega, by omega⟩
  · split
    · rename_i hm
      simp only [Date.valid]
      exact ⟨by omega, by omega, by omega, daysInMonth_pos _ _⟩
    · simp only [Date.valid]
      exact ⟨by omega, by omega, by omega, daysInMonth_pos _ _⟩

/-- Stepping to the next day increments the ordinal. -/
theorem ordinal_next {d : Date} (hv : d.valid) : d.next.ordinal = d.ordinal + 1 := by
  obtain ⟨h1, h2, h3, h4⟩ := hv
  unfold Date.next Date.ordinal
  split
  · dsimp only
    omega
  · rename_i hday
    split
    · rename_i hmon
      have hstep := daysBeforeMonth_succ d.year d.month h1
      dsimp only
      omega
    · rename_i hmon
      have hm12 : d.month = 12 := by omega
      have h13 : daysBeforeMonth d.year 13 = daysInYear d.year := daysBeforeMonth_13 d.year
      have hstep : daysBeforeMonth d.year 13 = daysBeforeMonth d.year 12 + daysInMonth d.year 12 := by
        simpa using daysBeforeMonth_succ d.year 12 (by omega)
      have hy : daysBeforeYear (d.year + 1) = daysBeforeYear d.year + daysInYear d.year := rfl
      have hb1 : daysBeforeMonth (d.year + 1) 1 = 0 := rfl
      dsimp only
      rw [hm12] at h4 hday ⊢
      omega

/-! ## Date series (`unnest(generate_series(a, b, INTERVAL 1 day))`) -/

/-- `n` consecutive calendar days starting at `d`. -/
def dateSeries (d : Date) : Nat → List Date
  | 0 => []
  | n + 1 => d :: dateSeries d.next n

theorem dateSeries_map_ordinal (n : Nat) (d : Date) (hv : d.valid) :
    (dateSeries d n).map Date.ordinal = List.range' d.ordinal n := by
  induction n generalizing d with
  | zero => rfl
  | succ k ih =>
    rw [dateSeries, List.map_cons, ih d.next (next_valid hv), ordinal_next hv,
      List.range'_succ]

theorem dateSeries_valid (n : Nat) (d : Date) (hv : d.valid) :
    ∀ e ∈ dateSeries d n, e.valid := by
  induction n generalizing d with
  | zero => intro e he; cases he
  | succ k ih =>
    intro e he
    rcases he with _ | he
    · exact hv
    · exact ih d.next (next_valid hv) e (by assumption)

theorem dateSeries_nodup (n : Nat) (d : Date) (hv : d.valid) :
    (dateSeries d n).Nodup :=
  List.Nodup.of_map Date.ordinal
    (dateSeries_map_ordinal n d hv ▸ List.nodup_range' _ _)

theorem mem_dateSeries_iff (n : Nat) (d : Date) (hv : d.valid) (x : Date)
    (hx : x.valid) :
    x ∈ dateSeries d n ↔ d.ordinal ≤ x.ordinal ∧ x.ordinal < d.ordinal + n := by
  constructor
  · intro hmem
    have : x.ordinal ∈ (dateSeries d n).map Date.ordinal :=
      List.mem_map_of_mem Date.ordinal hmem
    rw [dateSeries_map_ordinal n d hv] at this
    exact List.mem_range'_1.mp this
  · intro hb
    have : x.ordinal ∈ (dateSeries d n).map Date.ordinal := by
      rw [dateSeries_map_ordinal n d hv]
      exact List.mem_range'_1.mpr hb
    rcases List.mem_map.mp this with ⟨e, he, hord⟩
    have hev := dateSeries_valid n d hv e he
    rwa [ordinal_inj hev hx hord] at he

/-! ## Month boundaries used by `create_dim_calendar` -/

/-- `date(d.year, d.month, 1)` — the explicit start-of-month computation. -/
def startOfMonth (d : Date) : Date := ⟨d.year, d.month, 1⟩

/-- The end-of-month date exactly as `create_dim_calendar` computes it:
`date(y+1, 1, 1) - timedelta(1)` when the month is December, otherwise
`date(y, m+1, 1) - timedelta(1)`. -/
def calendarEnd (d : Date) : Date :=
  if d.month = 12 then Date.pred ⟨d.year + 1, 1, 1⟩
  else Date.pred ⟨d.year, d.month + 1, 1⟩

/-- The specification's notion: the last day of the month of `d`. -/
def lastOfMonth (d : Date) : Date := ⟨d.year, d.month, daysInMonth d.year d.month⟩

theorem daysInMonth_12 (y : Nat) : daysInMonth y 12 = 31 := rfl

/-- The code's subtract-one-day month-end computation agrees with the
last day of the month, including the December → January rollover. -/
theorem calendarEnd_eq_lastOfMonth (d : Date) (hv : d.valid) :
    calendarEnd d = lastOfMonth d := by
  obtain ⟨h1, h2, h3, h4⟩ := hv
  unfold calendarEnd lastOfMonth Date.pred
  split
  · rename_i h12
    simp only [show ¬((1:Nat) < 1) from by omega, if_false]
    rw [h12, daysInMonth_12]
    simp
  · rename_i h12
    have hm : 1 < d.month + 1 := by omega
    simp only [show ¬((1:Nat) < 1) from by omega, if_false, hm, if_true]
    simp

theorem startOfMonth_valid (d : Date) (hv : d.valid) : (startOfMonth d).valid :=
  ⟨hv.1, hv.2.1, le_refl 1, daysInMonth_pos _ _⟩

theorem lastOfMonth_valid (d : Date) (hv : d.valid) : (lastOfMonth d).valid :=
  ⟨hv.1, hv.2.1, daysInMonth_pos _ _, le_refl _⟩

theorem startOfMonth_ordinal_le (d : Date) (hv : d.valid) :
    (startOfMonth d).ordinal ≤ d.ordinal := by
  unfold startOfMonth Date.ordinal
  have := hv.2.2.1
  dsimp only
  omega

theorem ordinal_le_lastOfMonth (d : Date) (hv : d.valid) :
    d.ordinal ≤ (lastOfMonth d).ordinal := by
  unfold lastOfMonth Date.ordinal
  have := hv.2.2.2
  dsimp only
  omega

/-! ## Generic list lemmas for join and grouping semantics -/

/-- An inner join against a relation with `Nodup` keys collapses to the single
matching row: if `a ∈ l` and everything whose key differs from `a`'s
contributes nothing, the whole `flatMap` is `a`'s contribution. -/
theorem flatMap_eq_of_key_nodup {α β κ : Type} [DecidableEq κ]
    (l : List α) (key : α → κ) (hn : (l.map key).Nodup) (a : α) (ha : a ∈ l)
    (g : α → List β) (hg : ∀ x ∈ l, key x ≠ key a → g x = []) :
    l.flatMap g = g a := by
  induction l with
  | nil => cases ha
  | cons x t ih =>
    rw [List.map_cons, List.nodup_cons] at hn
    rcases List.mem_cons.mp ha with rfl | hat
    · have ht : t.flatMap g = [] := by
        rw [List.flatMap_eq_nil_iff]
        intro y hy
        refine hg y (List.mem_cons_of_mem _ hy) ?_
        intro hk
        exact hn.1 (hk ▸ List.mem_map_of_mem key hy)
      rw [List.flatMap_cons, ht, List.append_nil]
    · have hx : g x = [] := by
        refine hg x (List.mem_cons_self _ _) ?_
        intro hk
        exact hn.1 (hk ▸ List.mem_map_of_mem key hat)
      rw [List.flatMap_cons, hx, List.nil_append]
      exact ih hn.2 hat fun y hy => hg y (List.mem_cons_of_mem _ hy)

theorem sum_map_flatMap {α β M : Type} [AddCommMonoid M]
    (l : List α) (g : α → List β) (f : β → M) :
    ((l.flatMap g).map f).sum = (l.map (fun x => ((g x).map f).sum)).sum := by
  induction l with
  | nil => rfl
  | cons x t ih => simp [List.flatMap_cons, ih]

theorem sum_map_filter_or {α M : Type} [AddCommMonoid M]
    (l : List α) (p q : α → Bool) (f : α → M)
    (hpq : ∀ x ∈ l, ¬(p x = true ∧ q x = true)) :
    ((l.filter (fun x => p x || q x)).map f).sum =
      ((l.filter p).map f).sum + ((l.filter q).map f).sum := by
  induction l with
  | nil => simp
  | cons x t ih =>
    have ht := ih fun y hy => hpq y (List.mem_cons_of_mem _ hy)
    have hx := hpq x (List.mem_cons_self _ _)
    cases hp : p x
    · cases hq : q x
      · simp [List.filter_cons, hp, hq, ht]
      · simp [List.filter_cons, hp, hq, ht, add_assoc, add_left_comm]
    · cases hq : q x
      · simp [List.filter_cons, hp, hq, ht, add_assoc, add_left_comm]
      · simp [hp, hq] at hx

/-- Summing a function fiber-by-fiber over the deduplicated keys recovers the
total sum: `GROUP BY` partitions the rows. -/
theorem sum_fiber {α κ M : Type} [DecidableEq κ] [AddCommMonoid M]
    (l : List α) (key : α → κ) (f : α → M) :
    (((l.map key).dedup).map
        (fun k => ((l.filter (fun x => decide (key x = k))).map f).sum)).sum =
      (l.map f).sum := by
  have main : ∀ K : List κ, K.Nodup →
      ((K.map (fun k => ((l.filter (fun x => decide (key x = k))).map f).sum)).sum =
        ((l.filter (fun x => decide (key x ∈ K))).map f).sum) := by
    intro K hK
    induction K with
    | nil =>
      simp [List.filter_eq_nil_iff]
    | cons k K ih =>
      rw [List.nodup_cons] at hK
      rw [List.map_cons, List.sum_cons, ih hK.2]
      have hsplit := sum_map_filter_or l (fun x => decide (key x = k))
        (fun x => decide (key x ∈ K)) f ?_
      · have hfc : List.filter (fun x => decide (key x = k) || decide (key x ∈ K)) l =
            List.filter (fun x => decide (key x ∈ k :: K)) l := by
          apply List.filter_congr
          intro x _
          simp [List.mem_cons]
        rw [← hsplit, hfc]
      · intro x _ hx
        rcases hx with ⟨h1, h2⟩
        rw [decide_eq_true_eq] at h1 h2
        exact hK.1 (h1 ▸ h2)
  rw [main ((l.map key).dedup) (List.nodup_dedup _)]
  congr 1
  rw [List.filter_eq_self.mpr]
  intro a ha
  rw [decide_eq_true_eq, List.mem_dedup]
  exact List.mem_map_of_mem key ha

/-! ## Staging schema -/

/-- One row of `raw_retail_data` as produced by `ingest_retail_data`.
`invoice_date` models `DATE(invoice_ts)` (`none` when the timestamp is NULL;
the time-of-day component only affects row ordering, which no claim
references). -/
structure RawRetailRow where
  invoice_no : Option String
  stock_code : Option String
  description : Option String
  qty : Option Int
  invoice_date : Option Date
  unit_price_gbp : Option ℚ
  customer_id : Option Int
  country : Option String
deriving DecidableEq, Repr

/-- One row of `raw_fx_rates` as produced by `ingest_fx_data`. -/
structure RawFxRow where
  date : Date
  gbp_per_eur : Option ℚ
deriving DecidableEq, Repr

/-! ## Dimension builders (`src/models/dimensions.py`) -/

/-- The non-null values of `DATE(invoice_ts)` over the staging table (SQL
`MIN`/`MAX` ignore NULLs). -/
def obsDates (raw : List RawRetailRow) : List Date :=
  raw.filterMap (·.invoice_date)

/-- SQL `MIN(date)`: a date with minimal ordinal, `none` on an all-NULL input. -/
def minDate? (ds : List Date) : Option Date := ds.argmin Date.ordinal

/-- SQL `MAX(date)`: a date with maximal ordinal, `none` on an all-NULL input. -/
def maxDate? (ds : List Date) : Option Date := ds.argmax Date.ordinal

/-- The generated calendar day range of `create_dim_calendar`: every day from
the first of `dmin`'s month through the code's computed end of `dmax`'s
month. -/
def calendarDates (dmin dmax : Date) : List Date :=
  dateSeries (startOfMonth dmin)
    ((calendarEnd dmax).ordinal + 1 - (startOfMonth dmin).ordinal)

/-- `create_dim_calendar`: derives the observed transaction date range and
generates one row per day over the extended month range.  Returns `none` when
no non-null invoice timestamp exists (the Python code would fail on
`None.year`).  The derived context columns (weekend flag, ISO week/year,
day/month names, holiday flag) are functions of the date and are referenced by
no claim, so the dimension is embedded as its key column `date`. -/
def dimCalendar (raw : List RawRetailRow) : Option (List Date) :=
  match minDate? (obsDates raw), maxDate? (obsDates raw) with
  | some a, some b => some (calendarDates a b)
  | _, _ => none

/-- The stock-code filter of `create_dim_product` and `create_fct_sales`:
`stock_code IS NOT NULL AND stock_code != '' AND stock_code != 'nan'`. -/
def stockCodeOk (s : Option String) : Bool :=
  s.isSome && !(s == some "") && !(s == some "nan")

/-- `create_dim_product`: `GROUP BY stock_code` after the stock-code filter.
The aggregated columns (`MODE(description)`, first/last seen dates) are
referenced by no claim, so the dimension is embedded as its key column. -/
def dimProduct (raw : List RawRetailRow) : List String :=
  ((raw.filter (fun r => stockCodeOk r.stock_code)).filterMap (·.stock_code)).dedup

/-- `COALESCE(customer_id, -1)`. -/
def customerKey (r : RawRetailRow) : Int := r.customer_id.getD (-1)

/-- One row of `dim_customer` (country is nullable: `MODE` over an all-NULL
group is NULL). -/
structure DimCustomerRow where
  customer_id : Int
  country : Option String
deriving DecidableEq, Repr

/-- DuckDB `MODE(country)`: a most frequent non-null value (tie order is
engine-defined; the embedding picks the first maximiser). -/
def mode (l : List String) : Option String := l.argmax (fun s => l.count s)

/-- `create_dim_customer`: group by the coalesced customer id; the sentinel
key `-1` gets the literal country `'UNKNOWN'`, every other key the most
frequent country of its group. -/
def dimCustomer (raw : List RawRetailRow) : List DimCustomerRow :=
  ((raw.map customerKey).dedup).map fun k =>
    ⟨k, if k = -1 then some "UNKNOWN"
        else mode ((raw.filter (fun r => customerKey r == k)).filterMap (·.country))⟩

/-! ## Fact builder (`create_fct_sales`) -/

/-- One row of `fct_sales`. -/
structure FctSalesRow where
  invoice_no : Option String
  stock_code : String
  customer_id : Int
  date : Date
  qty : Int
  unit_price_gbp : ℚ
  gross_amount_gbp : ℚ
deriving DecidableEq, Repr

/-- The `WHERE` clause of `create_fct_sales` (stock-code filter plus non-null
unit price and quantity). -/
def fctWhere (r : RawRetailRow) : Bool :=
  stockCodeOk r.stock_code && r.unit_price_gbp.isSome && r.qty.isSome

/-- `create_fct_sales`: staging inner-joined to the three dimensions on
`DATE(invoice_ts) = c.date`, `stock_code = p.stock_code` and
`COALESCE(customer_id,-1) = cu.customer_id`, after the `WHERE` filter, with
`gross_amount_gbp = qty * unit_price_gbp`.  Joins keep SQL multiplicity: a row
is emitted once per matching dimension-row combination. -/
def fctSales (raw : List RawRetailRow) (cal : List Date) (prod : List String)
    (cust : List DimCustomerRow) : List FctSalesRow :=
  raw.flatMap fun r =>
    if fctWhere r then
      match r.invoice_date, r.stock_code, r.qty, r.unit_price_gbp with
      | some d, some sc, some q, some up =>
        cal.flatMap fun c =>
          prod.flatMap fun p =>
            cust.flatMap fun cu =>
              if (some d : Option Date) = some c then
                if (some sc : Option String) = some p then
                  if customerKey r = cu.customer_id then
                    [⟨r.invoice_no, p, cu.customer_id, c, q, up, (q : ℚ) * up⟩]
                  else []
                else []
              else []
      | _, _, _, _ => []
    else []

/-- `fct_sales` with the dimension tables built from the same staging
snapshot, as the pipeline runs it. -/
def fctSalesPipeline (raw : List RawRetailRow) (cal : List Date) : List FctSalesRow :=
  fctSales raw cal (dimProduct raw) (dimCustomer raw)

/-- The row(s) a single staged row contributes under the explicit filters
alone (no dimension joins): used to state that the joins filter nothing
further. -/
def specRows (r : RawRetailRow) : List FctSalesRow :=
  match r.invoice_date, r.stock_code, r.qty, r.unit_price_gbp with
  | some d, some sc, some q, some up =>
    if sc ≠ "" ∧ sc ≠ "nan" then
      [⟨r.invoice_no, sc, customerKey r, d, q, up, (q : ℚ) * up⟩]
    else []
  | _, _, _, _ => []

/-- The filter-only description of the fact table: one row per staged row with
a non-null invoice timestamp, a usable stock code, and non-null price and
quantity. -/
def fctSalesFiltered (raw : List RawRetailRow) : List FctSalesRow :=
  raw.flatMap specRows

/-! ## FX alignment (`create_daily_fx_rates`) -/

/-- `date_series LEFT JOIN raw_fx_rates ON ds.date = fx.date`: an unmatched
day yields one row with a NULL rate; matched days yield one row per matching
observation. -/
def leftJoinFx (series : List Date) (fx : List RawFxRow) : List (Date × Option ℚ) :=
  series.flatMap fun d =>
    match fx.filter (fun o => o.date == d) with
    | [] => [(d, none)]
    | l => l.map fun o => (d, o.gbp_per_eur)

/-- `LAST_VALUE(gbp_per_eur IGNORE NULLS) OVER (ORDER BY ds.date ROWS BETWEEN
UNBOUNDED PRECEDING AND CURRENT ROW)` over the date-ordered join result: a
left-to-right scan carrying the last non-null rate. -/
def forwardFill (acc : Option ℚ) : List (Date × Option ℚ) → List (Date × Option ℚ)
  | [] => []
  | (d, v) :: rest =>
    match v with
    | some r => (d, some r) :: forwardFill (some r) rest
    | none => (d, acc) :: forwardFill acc rest

/-- `create_daily_fx_rates`: build the day series over the sales fact's date
range, left-join the raw FX observations, forward-fill, and drop the days
still NULL (days before the first joined observation).  `none` models the
Python failure when `fct_sales` is empty (the SQL interpolation would receive
`None`). -/
def dailyFxRates (fct : List FctSalesRow) (fx : List RawFxRow) :
    Option (List (Date × ℚ)) :=
  match minDate? (fct.map (·.date)), maxDate? (fct.map (·.date)) with
  | some a, some b =>
    some ((forwardFill none
        (leftJoinFx (dateSeries a (b.ordinal + 1 - a.ordinal)) fx)).filterMap
      fun p => match p.2 with | some r => some (p.1, r) | none => none)
  | _, _ => none

/-! ## Currency conversion (`create_fct_sales_eur`) -/

/-- One row of `fct_sales_eur`. -/
structure FctSalesEurRow where
  invoice_no : Option String
  stock_code : String
  customer_id : Int
  date : Date
  qty : Int
  unit_price_gbp : ℚ
  unit_price_eur : ℚ
  gross_amount_gbp : ℚ
  gross_amount_eur : ℚ
  fx_rate_used : ℚ
deriving DecidableEq, Repr

/-- `create_fct_sales_eur`: inner join of the fact to the aligned daily rates
on the date, converting by division (`amount_eur = amount_gbp / rate`). -/
def fctSalesEur (fct : List FctSalesRow) (daily : List (Date × ℚ)) :
    List FctSalesEurRow :=
  fct.flatMap fun f =>
    daily.flatMap fun fx =>
      if f.date = fx.1 then
        [⟨f.invoice_no, f.stock_code, f.customer_id, f.date, f.qty,
          f.unit_price_gbp, f.unit_price_gbp / fx.2, f.gross_amount_gbp,
          f.gross_amount_gbp / fx.2, fx.2⟩]
      else []

/-! ## Country-day aggregation (`create_agg_country_day`) -/

/-- SQL equality on a nullable column: `NULL = x` is never true, so a NULL
invoice number matches nothing in a join condition. -/
def sqlEqOpt (a b : Option String) : Bool :=
  match a, b with
  | some x, some y => x == y
  | _, _ => false

/-- The join condition between `fct_sales` and `fct_sales_eur` in
`create_agg_country_day` (equality on invoice, stock code, date and customer
id). -/
def aggKey4 (f : FctSalesRow) (x : FctSalesEurRow) : Bool :=
  sqlEqOpt f.invoice_no x.invoice_no && f.stock_code == x.stock_code &&
    f.date == x.date && f.customer_id == x.customer_id

/-- The joined relation `fct_sales ⋈ fct_sales_eur ⋈ dim_customer ⋈
dim_calendar` that `create_agg_country_day` groups.  The calendar join
contributes only multiplicity (its context columns are functions of the
date). -/
def aggJoined (fct : List FctSalesRow) (fe : List FctSalesEurRow)
    (cust : List DimCustomerRow) (cal : List Date) :
    List (FctSalesRow × FctSalesEurRow × DimCustomerRow) :=
  fct.flatMap fun f =>
    fe.flatMap fun x =>
      cust.flatMap fun cu =>
        cal.flatMap fun c =>
          if aggKey4 f x then
            if f.customer_id = cu.customer_id then
              if f.date = c then [(f, x, cu)] else []
            else []
          else []

/-- The rows of one `(date, country)` group. -/
def groupOf (joined : List (FctSalesRow × FctSalesEurRow × DimCustomerRow))
    (k : Date × Option String) :
    List (FctSalesRow × FctSalesEurRow × DimCustomerRow) :=
  joined.filter fun t => decide ((t.1.date, t.2.2.country) = k)

/-- SQL `invoice_no LIKE 'C%'`: the invoice number's first character is
`'C'`. -/
def likeC (s : String) : Bool := s.data.head? == some 'C'

/-- `COUNT(DISTINCT CASE WHEN invoice_no NOT LIKE 'C%' THEN invoice_no ELSE
NULL END)`: `COUNT(DISTINCT ...)` ignores NULLs, and a NULL invoice number
makes the `NOT LIKE` predicate NULL, hence also the `CASE` result. -/
def ordersOf (grp : List (FctSalesRow × FctSalesEurRow × DimCustomerRow)) : Nat :=
  ((grp.filterMap fun t =>
      match t.1.invoice_no with
      | some s => if likeC s then none else some s
      | none => none).dedup).length

/-- One row of `agg_country_day` (metric columns; the carried calendar
context columns are functions of `date` and are referenced by no claim). -/
structure AggRow where
  date : Date
  country : Option String
  orders : Nat
  items : Nat
  net_qty : Int
  net_revenue_gbp : ℚ
  net_revenue_eur : ℚ
deriving DecidableEq, Repr

/-- `create_agg_country_day`: group the joined relation by `(date, country)`
(the additional calendar grouping columns are functions of the date, so they
do not refine the grouping), computing the order/item/quantity/revenue
metrics per group. -/
def aggCountryDay (fct : List FctSalesRow) (fe : List FctSalesEurRow)
    (cust : List DimCustomerRow) (cal : List Date) : List AggRow :=
  let joined := aggJoined fct fe cust cal
  ((joined.map fun t => (t.1.date, t.2.2.country)).dedup).map fun k =>
    let grp := groupOf joined k
    ⟨k.1, k.2, ordersOf grp, grp.length, (grp.map fun t => t.1.qty).sum,
      (grp.map fun t => t.1.gross_amount_gbp).sum,
      (grp.map fun t => t.2.1.gross_amount_eur).sum⟩

/-! ## Holiday ingestion (`ingest_holidays_data`) -/

/-- The cleaning stage of `ingest_holidays_data`: `dropna`, conversion to
dates, `drop_duplicates`, `sort_values`. -/
def cleanHolidays (col : List (Option Date)) : List Date :=
  ((col.filterMap id).dedup).mergeSort fun a b => decide (a.ordinal ≤ b.ordinal)

/-- `ingest_holidays_data` from the cleaning stage onward: it stores whatever
the cleaning produced into `raw_uk_holidays`.  The function body contains no
emptiness check, so no input reaching this stage produces an error. -/
def ingestHolidays (col : List (Option Date)) : Except String (List Date) :=
  Except.ok (cleanHolidays col)

/-- The corresponding guard in `ingest_fx_data` (lines 91-92), which does
raise `ValueError` on zero valid observations — embedded for contrast. -/
def ingestFxGuard (parsed : List (Date × ℚ)) : Except String (List (Date × ℚ)) :=
  if parsed.isEmpty then Except.error "No valid exchange rate data found"
  else Except.ok parsed

/-! ## Specification-side notions and validator counts -/

/-- The raw observation joined to a given day (first match; unique when the
observation dates are distinct). -/
def obsRate (fx : List RawFxRow) (d : Date) : Option ℚ :=
  match fx.filter (fun o => o.date == d) with
  | [] => none
  | o :: _ => o.gbp_per_eur

/-- The non-null observation with the latest date among those dated in the
ordinal window `[lo, hi]`. -/
def windowObs (fx : List RawFxRow) (lo hi : Nat) : Option RawFxRow :=
  (fx.filter fun o =>
      o.gbp_per_eur.isSome && decide (lo ≤ o.date.ordinal) &&
        decide (o.date.ordinal ≤ hi)).argmax
    fun o => o.date.ordinal

/-- The most recently observed non-null rate in the ordinal window
`[lo, hi]`. -/
def windowRate (fx : List RawFxRow) (lo hi : Nat) : Option ℚ :=
  (windowObs fx lo hi).bind (·.gbp_per_eur)

/-- The `fct_sales_eur` row produced from a `fct_sales` row and the rate of
its date. -/
def convRow (f : FctSalesRow) (r : ℚ) : FctSalesEurRow :=
  ⟨f.invoice_no, f.stock_code, f.customer_id, f.date, f.qty, f.unit_price_gbp,
    f.unit_price_gbp / r, f.gross_amount_gbp, f.gross_amount_gbp / r, r⟩

/-- The join key on which `create_agg_country_day` matches `fct_sales` to
`fct_sales_eur`. -/
def salesKey (f : FctSalesRow) : Option String × String × Date × Int :=
  (f.invoice_no, f.stock_code, f.date, f.customer_id)

/-- The validator's `'Missing calendar'` orphan count: fact rows whose date
matches no `dim_calendar` row under the left join. -/
def missingCalendarCount (fct : List FctSalesRow) (cal : List Date) : Nat :=
  (fct.filter fun f => decide (f.date ∉ cal)).length

/-- The validator's `'Missing customer'` orphan count: fact rows whose
customer id matches no `dim_customer` row under the left join. -/
def missingCustomerCount (fct : List FctSalesRow) (cust : List DimCustomerRow) : Nat :=
  (fct.filter fun f =>
      decide (f.customer_id ∉ cust.map DimCustomerRow.customer_id)).length

/-! ## Concrete data for witnesses and counterexamples -/

/-- A staged December transaction with a NULL customer id. -/
def wRow : RawRetailRow :=
  ⟨some "536365", some "85123A", some "HOLDER", some 6, some ⟨0, 12, 1⟩,
    some 3, none, some "United Kingdom"⟩

/-- A one-row staging snapshot. -/
def wRaw : List RawRetailRow := [wRow]

/-- One FX observation on the sales date of `wRaw`. -/
def wFx : List RawFxRow := [⟨⟨0, 12, 1⟩, some 2⟩]

/-- Two fact rows spanning a six-day range with a trading gap between the two
observations of `wFx2`. -/
def wFct2 : List FctSalesRow :=
  [⟨some "A", "S", 1, ⟨0, 1, 1⟩, 1, 1, 1⟩, ⟨some "B", "S", 1, ⟨0, 1, 6⟩, 1, 1, 1⟩]

/-- FX observations on the first and last day of `wFct2`'s range only. -/
def wFx2 : List RawFxRow :=
  [⟨⟨0, 1, 1⟩, some (85/100)⟩, ⟨⟨0, 1, 6⟩, some (9/10)⟩]

/-- A fact row dated after the only FX observation of `cFx`. -/
def cFct : List FctSalesRow := [⟨some "A", "S", 1, ⟨0, 1, 10⟩, 1, 1, 1⟩]

/-- A non-null FX observation dated before the sales range of `cFct`. -/
def cFx : List RawFxRow := [⟨⟨0, 1, 5⟩, some 2⟩]

/-- A staged row that will be duplicated to break the aggregation join. -/
def cRow : RawRetailRow :=
  ⟨some "I1", some "A", none, some 1, some ⟨0, 1, 1⟩, some 1, some 1, some "UK"⟩

/-- A staging snapshot with two identical line rows. -/
def cRawDup : List RawRetailRow := [cRow, cRow]

/-- An FX observation covering the single sales date of `cRawDup`. -/
def cFx1 : List RawFxRow := [⟨⟨0, 1, 1⟩, some 1⟩]

/-- The calendar dimension the pipeline builds from `wRaw`. -/
def wCal : List Date := calendarDates ⟨0, 12, 1⟩ ⟨0, 12, 1⟩

/-- The single fact row the pipeline builds from `wRaw`. -/
def wFctRow : FctSalesRow :=
  ⟨some "536365", "85123A", -1, ⟨0, 12, 1⟩, 6, 3, 18⟩

/-- A sale line and its cancellation on the same country-day. -/
def vFct : List FctSalesRow :=
  [⟨some "536365", "A", 1, ⟨0, 1, 1⟩, 6, 1, 6⟩,
   ⟨some "C536365", "A", 1, ⟨0, 1, 1⟩, -6, 1, -6⟩]

/-- The corresponding converted rows at rate 1. -/
def vFe : List FctSalesEurRow :=
  [⟨some "536365", "A", 1, ⟨0, 1, 1⟩, 6, 1, 1, 6, 6, 1⟩,
   ⟨some "C536365", "A", 1, ⟨0, 1, 1⟩, -6, 1, 1, -6, -6, 1⟩]

/-- A one-customer dimension. -/
def vCust : List DimCustomerRow := [⟨1, some "UK"⟩]

/-- A one-day calendar. -/
def vCal : List Date := [⟨0, 1, 1⟩]

/-- The single aggregate row over `vFct`: the cancellation is excluded from
`orders` but included in `items`, `net_qty` and `net_revenue`. -/
def vAggRow : AggRow := ⟨⟨0, 1, 1⟩, some "UK", 1, 2, 0, 0, 0⟩

/-- The daily rate table the pipeline derives from `wFct2` and `wFx2`: the
gap days 2..5 all carry the day-1 rate. -/
def wDfx : List (Date × ℚ) :=
  [(⟨0, 1, 1⟩, 85/100), (⟨0, 1, 2⟩, 85/100), (⟨0, 1, 3⟩, 85/100),
   (⟨0, 1, 4⟩, 85/100), (⟨0, 1, 5⟩, 85/100), (⟨0, 1, 6⟩, 9/10)]

/-- The calendar the pipeline builds from `cRawDup`. -/
def cCal : List Date := calendarDates ⟨0, 1, 1⟩ ⟨0, 1, 1⟩

/-- The fact row each copy of `cRow` produces. -/
def cFctRow : FctSalesRow := ⟨some "I1", "A", 1, ⟨0, 1, 1⟩, 1, 1, 1⟩

/-- The converted row each copy of `cFctRow` produces at rate 1. -/
def cFeRow : FctSalesEurRow := ⟨some "I1", "A", 1, ⟨0, 1, 1⟩, 1, 1, 1, 1, 1, 1⟩

/-! ## Helper lemmas -/

theorem stockCodeOk_some {s : String} :
    stockCodeOk (some s) = true ↔ s ≠ "" ∧ s ≠ "nan" := by
  simp [stockCodeOk]

/-- Every fact row's dimension keys come from the joined dimension rows. -/
theorem mem_fctSales {raw : List RawRetailRow} {cal : List Date}
    {prod : List String} {cust : List DimCustomerRow} {row : FctSalesRow}
    (hx : row ∈ fctSales raw cal prod cust) :
    row.date ∈ cal ∧ row.stock_code ∈ prod ∧
      row.customer_id ∈ cust.map DimCustomerRow.customer_id := by
  rcases List.mem_flatMap.mp hx with ⟨r, hr, h1⟩
  by_cases hw : fctWhere r
  · rw [if_pos hw] at h1
    rcases hdate : r.invoice_date with _ | d
    · rw [hdate] at h1; simp at h1
    rcases hsc : r.stock_code with _ | sc
    · rw [hdate, hsc] at h1; simp at h1
    rcases hq : r.qty with _ | q
    · rw [hdate, hsc, hq] at h1; simp at h1
    rcases hup : r.unit_price_gbp with _ | up
    · rw [hdate, hsc, hq, hup] at h1; simp at h1
    · rw [hdate, hsc, hq, hup] at h1
      rcases List.mem_flatMap.mp h1 with ⟨c, hc, h2⟩
      rcases List.mem_flatMap.mp h2 with ⟨p, hp, h3⟩
      rcases List.mem_flatMap.mp h3 with ⟨cu, hcu, h4⟩
      by_cases h5 : (some d : Option Date) = some c
      · rw [if_pos h5] at h4
        by_cases h6 : (some sc : Option String) = some p
        · rw [if_pos h6] at h4
          by_cases h7 : customerKey r = cu.customer_id
          · rw [if_pos h7] at h4
            have hx2 := List.mem_singleton.mp h4
            subst hx2
            exact ⟨hc, hp, List.mem_map_of_mem _ hcu⟩
          · rw [if_neg h7] at h4; cases h4
        · rw [if_neg h6] at h4; cases h4
      · rw [if_neg h5] at h4; cases h4
  · rw [if_neg hw] at h1; cases h1

/-! ## Claim theorems -/

/-- C8: for every row of `fct_sales_eur`, `unit_price_eur * fx_rate_used`
reconstructs `unit_price_gbp` exactly (over exact arithmetic), provided the
rate used for that row is nonzero — the conversion is division by that
rate. -/
theorem c8_unit_price_roundtrip (fct : List FctSalesRow)
    (daily : List (Date × ℚ)) (x : FctSalesEurRow)
    (hx : x ∈ fctSalesEur fct daily) (hr : x.fx_rate_used ≠ 0) :
    x.unit_price_eur * x.fx_rate_used = x.unit_price_gbp := by
  rcases List.mem_flatMap.mp hx with ⟨f, hf, h1⟩
  rcases List.mem_flatMap.mp h1 with ⟨p, hp, h2⟩
  by_cases h : f.date = p.1
  · rw [if_pos h] at h2
    have hx2 := List.mem_singleton.mp h2
    subst hx2
    exact div_mul_cancel₀ _ hr
  · rw [if_neg h] at h2; cases h2

theorem c8_witness :
    (⟨some "A", "S", 1, ⟨0, 1, 1⟩, 2, 3, 3/2, 6, 3, 2⟩ : FctSalesEurRow) ∈
        fctSalesEur [⟨some "A", "S", 1, ⟨0, 1, 1⟩, 2, 3, 6⟩] [(⟨0, 1, 1⟩, 2)] ∧
      ((3 : ℚ)/2) * 2 = 3 := by
  have hmem : (⟨some "A", "S", 1, ⟨0, 1, 1⟩, 2, 3, 3/2, 6, 3, 2⟩ : FctSalesEurRow) ∈
      fctSalesEur [⟨some "A", "S", 1, ⟨0, 1, 1⟩, 2, 3, 6⟩] [(⟨0, 1, 1⟩, 2)] := by
    simp [fctSalesEur]
    norm_num
  exact ⟨hmem, c8_unit_price_roundtrip
    [⟨some "A", "S", 1, ⟨0, 1, 1⟩, 2, 3, 6⟩] [(⟨0, 1, 1⟩, 2)]
    ⟨some "A", "S", 1, ⟨0, 1, 1⟩, 2, 3, 3/2, 6, 3, 2⟩ hmem (by norm_num)⟩

/-- C3: every row of `fct_sales` references an existing calendar date,
product and customer — by construction of the inner joins, for every staging
input on which the calendar stage completed. -/
theorem c3_referential_integrity (raw : List RawRetailRow) (cal : List Date)
    (_hcal : dimCalendar raw = some cal) (row : FctSalesRow)
    (hrow : row ∈ fctSalesPipeline raw cal) :
    row.date ∈ cal ∧ row.stock_code ∈ dimProduct raw ∧
      row.customer_id ∈ (dimCustomer raw).map DimCustomerRow.customer_id :=
  mem_fctSales hrow

theorem c3_witness :
    dimCalendar wRaw = some wCal ∧ wFctRow ∈ fctSalesPipeline wRaw wCal ∧
      wFctRow.date ∈ wCal ∧ wFctRow.stock_code ∈ dimProduct wRaw ∧
        wFctRow.customer_id ∈ (dimCustomer wRaw).map DimCustomerRow.customer_id := by
  have hmem : wFctRow ∈ fctSalesPipeline wRaw wCal := by
    simp [fctSalesPipeline, fctSales, wRaw, wRow, wCal, calendarDates, dateSeries,
      fctWhere, stockCodeOk, dimProduct, dimCustomer, customerKey, wFctRow,
      startOfMonth, calendarEnd, Date.pred, Date.next, Date.ordinal,
      daysBeforeYear, daysBeforeMonth, daysInMonth, daysInYear, isLeap]
    norm_num
  exact ⟨by decide, hmem, c3_referential_integrity wRaw wCal (by decide) wFctRow hmem⟩

/-- C7: no stock code that is empty or the literal placeholder `'nan'` (or
NULL — impossible for a produced key, which is a present string) appears in
`dim_product`, and no `fct_sales` row carries such a stock code. -/
theorem c7_placeholder_stock_excluded (raw : List RawRetailRow) (cal : List Date) :
    (∀ s ∈ dimProduct raw, s ≠ "" ∧ s ≠ "nan") ∧
      ∀ row ∈ fctSalesPipeline raw cal,
        row.stock_code ≠ "" ∧ row.stock_code ≠ "nan" := by
  have h1 : ∀ s ∈ dimProduct raw, s ≠ "" ∧ s ≠ "nan" := by
    intro s hs
    rcases List.mem_filterMap.mp (List.mem_dedup.mp hs) with ⟨r, hr, hsc⟩
    have hok := (List.mem_filter.mp hr).2
    rw [hsc] at hok
    exact stockCodeOk_some.mp hok
  exact ⟨h1, fun row hrow => h1 row.stock_code (mem_fctSales hrow).2.1⟩

theorem c7_witness :
    (∀ s ∈ dimProduct wRaw, s ≠ "" ∧ s ≠ "nan") ∧
      ∀ row ∈ fctSalesPipeline wRaw wCal,
        row.stock_code ≠ "" ∧ row.stock_code ≠ "nan" :=
  c7_placeholder_stock_excluded wRaw wCal

/-- C9 counterexample: a holiday column whose cleaning yields zero valid
dates makes `ingest_holidays_data` store an empty table and return normally —
it raises no error, contradicting the claim that this condition aborts the
run. -/
theorem c9_counterexample :
    ingestHolidays [none] = Except.ok [] ∧
      ∀ msg : String, ingestHolidays [none] ≠ Except.error msg := by
  have h0 : ingestHolidays [none] = Except.ok [] := by
    simp [ingestHolidays, cleanHolidays]
  refine ⟨h0, ?_⟩
  intro msg h
  rw [h0] at h
  exact Except.noConfusion h

/-- C9 (amended): when cleaning yields zero valid holiday dates, the holiday
ingestion stage does not raise; it creates an empty `raw_uk_holidays` table
and returns normally (the analogous zero-valid-data guard exists only in the
FX ingestion stage). -/
theorem c9_empty_holidays_no_error :
    (∀ col : List (Option Date), col.filterMap id = [] →
        ingestHolidays col = Except.ok []) ∧
      ingestFxGuard [] = Except.error "No valid exchange rate data found" := by
  refine ⟨?_, rfl⟩
  intro col h
  unfold ingestHolidays cleanHolidays
  rw [h]
  simp

theorem c9_witness :
    ([none, none] : List (Option Date)).filterMap id = [] ∧
      ingestHolidays [none, none] = Except.ok [] :=
  ⟨rfl, c9_empty_holidays_no_error.1 [none, none] rfl⟩

/-- `dimCalendar` unfolded at a staging input whose date aggregates exist. -/
theorem dimCalendar_eq {raw : List RawRetailRow} {dmin dmax : Date}
    (hmin : minDate? (obsDates raw) = some dmin)
    (hmax : maxDate? (obsDates raw) = some dmax) :
    dimCalendar raw = some (calendarDates dmin dmax) := by
  unfold dimCalendar
  rw [hmin, hmax]

/-- The generated calendar is a gapless run of exactly the valid days between
the first of the start month and the last day of the end month. -/
theorem calendarDates_spec (dmin dmax : Date) (h1 : dmin.valid) (h2 : dmax.valid)
    (hle : dmin.ordinal ≤ dmax.ordinal) :
    (calendarDates dmin dmax).Nodup ∧
      (calendarDates dmin dmax).map Date.ordinal =
        List.range' (startOfMonth dmin).ordinal
          ((lastOfMonth dmax).ordinal + 1 - (startOfMonth dmin).ordinal) ∧
      (∀ d : Date, d.valid →
        (d ∈ calendarDates dmin dmax ↔
          (startOfMonth dmin).ordinal ≤ d.ordinal ∧
            d.ordinal ≤ (lastOfMonth dmax).ordinal)) ∧
      ∀ c ∈ calendarDates dmin dmax, c.valid := by
  have hsv := startOfMonth_valid dmin h1
  have hlast : calendarEnd dmax = lastOfMonth dmax := calendarEnd_eq_lastOfMonth dmax h2
  have hbound : (startOfMonth dmin).ordinal ≤ (lastOfMonth dmax).ordinal :=
    le_trans (startOfMonth_ordinal_le dmin h1)
      (le_trans hle (ordinal_le_lastOfMonth dmax h2))
  unfold calendarDates
  rw [hlast]
  refine ⟨dateSeries_nodup _ _ hsv, dateSeries_map_ordinal _ _ hsv, ?_,
    dateSeries_valid _ _ hsv⟩
  intro d hd
  rw [mem_dateSeries_iff _ _ hsv d hd]
  omega

/-- C6: for every staging input with at least one observed (well-formed)
transaction date, `dim_calendar` holds exactly one row per calendar day, with
no gap, from the first day of the month of the minimum observed date through
the last day of the month of the maximum observed date — the code's
subtract-a-day month-end computation (December year-rollover included) being
provably that last day. -/
theorem c6_calendar_range (raw : List RawRetailRow) (dmin dmax : Date)
    (cal : List Date) (Hv : ∀ d ∈ obsDates raw, d.valid)
    (hmin : minDate? (obsDates raw) = some dmin)
    (hmax : maxDate? (obsDates raw) = some dmax)
    (hcal : dimCalendar raw = some cal) :
    cal.Nodup ∧
      cal.map Date.ordinal =
        List.range' (startOfMonth dmin).ordinal
          ((lastOfMonth dmax).ordinal + 1 - (startOfMonth dmin).ordinal) ∧
      ∀ d : Date, d.valid →
        (d ∈ cal ↔ (startOfMonth dmin).ordinal ≤ d.ordinal ∧
          d.ordinal ≤ (lastOfMonth dmax).ordinal) := by
  have hdmin_mem : dmin ∈ obsDates raw :=
    List.argmin_mem (show dmin ∈ (obsDates raw).argmin Date.ordinal from hmin)
  have hdmax_mem : dmax ∈ obsDates raw :=
    List.argmax_mem (show dmax ∈ (obsDates raw).argmax Date.ordinal from hmax)
  have h1 := Hv dmin hdmin_mem
  have h2 := Hv dmax hdmax_mem
  have hle : dmin.ordinal ≤ dmax.ordinal :=
    List.le_of_mem_argmin hdmax_mem
      (show dmin ∈ (obsDates raw).argmin Date.ordinal from hmin)
  have hspec := calendarDates_spec dmin dmax h1 h2 hle
  have hcal2 : calendarDates dmin dmax = cal := by
    have h3 := dimCalendar_eq hmin hmax
    rw [h3] at hcal
    exact Option.some.inj hcal
  rw [← hcal2]
  exact ⟨hspec.1, hspec.2.1, hspec.2.2.1⟩

theorem c6_witness :
    dimCalendar wRaw = some wCal ∧ wCal.Nodup ∧ (⟨0, 12, 31⟩ : Date) ∈ wCal := by
  have h := c6_calendar_range wRaw ⟨0, 12, 1⟩ ⟨0, 12, 1⟩ wCal (by decide)
    (by decide) (by decide) (by decide)
  exact ⟨by decide, h.1, (h.2.2 ⟨0, 12, 31⟩ (by decide)).mpr (by decide)⟩

/-- The customer dimension's key column is the deduplicated coalesced key
list. -/
theorem dimCustomer_keys (raw : List RawRetailRow) :
    (dimCustomer raw).map DimCustomerRow.customer_id = (raw.map customerKey).dedup := by
  unfold dimCustomer
  rw [List.map_map]
  exact List.map_id'' (fun k => rfl) _

/-- Every observed transaction date lies in the calendar built from the same
snapshot, the calendar has no duplicate days, and all its days are
well-formed. -/
theorem dimCalendar_covers {raw : List RawRetailRow} {cal : List Date}
    (Hv : ∀ d ∈ obsDates raw, d.valid) (hcal : dimCalendar raw = some cal) :
    cal.Nodup ∧ (∀ d ∈ obsDates raw, d ∈ cal) ∧ ∀ c ∈ cal, c.valid := by
  rcases hmin : minDate? (obsDates raw) with _ | dmin
  · unfold dimCalendar at hcal
    rw [hmin] at hcal
    rcases hmax : maxDate? (obsDates raw) with _ | dmax <;> rw [hmax] at hcal <;>
      exact Option.noConfusion hcal
  rcases hmax : maxDate? (obsDates raw) with _ | dmax
  · unfold dimCalendar at hcal
    rw [hmin, hmax] at hcal
    exact Option.noConfusion hcal
  have hcal2 : calendarDates dmin dmax = cal := by
    have h3 := dimCalendar_eq hmin hmax
    rw [h3] at hcal
    exact Option.some.inj hcal
  have hdmin_mem : dmin ∈ obsDates raw :=
    List.argmin_mem (show dmin ∈ (obsDates raw).argmin Date.ordinal from hmin)
  have hdmax_mem : dmax ∈ obsDates raw :=
    List.argmax_mem (show dmax ∈ (obsDates raw).argmax Date.ordinal from hmax)
  have h1 := Hv dmin hdmin_mem
  have h2 := Hv dmax hdmax_mem
  have hle : dmin.ordinal ≤ dmax.ordinal :=
    List.le_of_mem_argmin hdmax_mem
      (show dmin ∈ (obsDates raw).argmin Date.ordinal from hmin)
  have hspec := calendarDates_spec dmin dmax h1 h2 hle
  rw [← hcal2]
  refine ⟨hspec.1, ?_, hspec.2.2.2⟩
  intro d hd
  have hdv := Hv d hd
  refine (hspec.2.2.1 d hdv).mpr ⟨?_, ?_⟩
  · exact le_trans (startOfMonth_ordinal_le dmin h1)
      (List.le_of_mem_argmin hd
        (show dmin ∈ (obsDates raw).argmin Date.ordinal from hmin))
  · exact le_trans
      (List.le_of_mem_argmax hd
        (show dmax ∈ (obsDates raw).argmax Date.ordinal from hmax))
      (ordinal_le_lastOfMonth dmax h2)

/-- Collapsing the three dimension joins of `create_fct_sales` at a row whose
keys are all present: each join contributes exactly its one matching
dimension row. -/
theorem join_collapse (cal : List Date) (prod : List String)
    (cust : List DimCustomerRow) (hncal : cal.Nodup) (hnprod : prod.Nodup)
    (hncust : (cust.map DimCustomerRow.customer_id).Nodup)
    (d : Date) (sc : String) (k : Int) (hd : d ∈ cal) (hsc : sc ∈ prod)
    (cu0 : DimCustomerRow) (hcu0 : cu0 ∈ cust) (hk : cu0.customer_id = k)
    (mk : Date → String → Int → FctSalesRow) :
    (cal.flatMap fun c =>
      prod.flatMap fun p =>
        cust.flatMap fun cu =>
          if (some d : Option Date) = some c then
            if (some sc : Option String) = some p then
              if k = cu.customer_id then [mk c p cu.customer_id] else []
            else []
          else []) = [mk d sc k] := by
  have hstep1 :
      (cal.flatMap fun c =>
        prod.flatMap fun p =>
          cust.flatMap fun cu =>
            if (some d : Option Date) = some c then
              if (some sc : Option String) = some p then
                if k = cu.customer_id then [mk c p cu.customer_id] else []
              else []
            else []) =
        prod.flatMap fun p =>
          cust.flatMap fun cu =>
            if (some d : Option Date) = some d then
              if (some sc : Option String) = some p then
                if k = cu.customer_id then [mk d p cu.customer_id] else []
              else []
            else [] :=
    flatMap_eq_of_key_nodup cal id (by simpa using hncal) d hd _
      (by
        intro c hc hne
        refine List.flatMap_eq_nil_iff.mpr fun p hp => ?_
        refine List.flatMap_eq_nil_iff.mpr fun cu hcu => ?_
        rw [if_neg]
        exact fun h => hne ((Option.some.inj h).symm))
  have hstep2 :
      (prod.flatMap fun p =>
        cust.flatMap fun cu =>
          if (some d : Option Date) = some d then
            if (some sc : Option String) = some p then
              if k = cu.customer_id then [mk d p cu.customer_id] else []
            else []
          else []) =
        cust.flatMap fun cu =>
          if (some d : Option Date) = some d then
            if (some sc : Option String) = some sc then
              if k = cu.customer_id then [mk d sc cu.customer_id] else []
            else []
          else [] :=
    flatMap_eq_of_key_nodup prod id (by simpa using hnprod) sc hsc _
      (by
        intro p hp hne
        refine List.flatMap_eq_nil_iff.mpr fun cu hcu => ?_
        rw [if_pos rfl, if_neg]
        exact fun h => hne ((Option.some.inj h).symm))
  have hstep3 :
      (cust.flatMap fun cu =>
        if (some d : Option Date) = some d then
          if (some sc : Option String) = some sc then
            if k = cu.customer_id then [mk d sc cu.customer_id] else []
          else []
        else []) =
        if (some d : Option Date) = some d then
          if (some sc : Option String) = some sc then
            if k = cu0.customer_id then [mk d sc cu0.customer_id] else []
          else []
        else [] :=
    flatMap_eq_of_key_nodup cust DimCustomerRow.customer_id hncust cu0 hcu0 _
      (by
        intro cu hcu hne
        rw [if_pos rfl, if_pos rfl, if_neg]
        intro h
        rw [hk] at hne
        exact hne h.symm)
  rw [hstep1, hstep2, hstep3, if_pos rfl, if_pos rfl, if_pos hk.symm, hk]

/-- The heart of the fact builder's behaviour: when the dimensions come from
the same staging snapshot (and every observed date is a well-formed calendar
date), the three inner joins exclude nothing beyond the explicit `WHERE`
filters — `fct_sales` is exactly the filtered staging rows. -/
theorem fctSalesPipeline_eq_filtered (raw : List RawRetailRow)
    (Hv : ∀ d ∈ obsDates raw, d.valid) {cal : List Date}
    (hcal : dimCalendar raw = some cal) :
    fctSalesPipeline raw cal = fctSalesFiltered raw := by
  obtain ⟨hnd, hcov, _⟩ := dimCalendar_covers Hv hcal
  unfold fctSalesPipeline fctSales fctSalesFiltered
  apply List.flatMap_congr
  intro r hr
  by_cases hw : fctWhere r
  · rw [if_pos hw]
    have hw2 := hw
    unfold fctWhere at hw2
    rw [Bool.and_eq_true, Bool.and_eq_true] at hw2
    obtain ⟨⟨hok, hupS⟩, hqS⟩ := hw2
    rcases hsc0 : r.stock_code with _ | sc
    · rw [hsc0] at hok; simp [stockCodeOk] at hok
    rcases hq0 : r.qty with _ | q
    · rw [hq0] at hqS; simp at hqS
    rcases hup0 : r.unit_price_gbp with _ | up
    · rw [hup0] at hupS; simp at hupS
    rcases hdate : r.invoice_date with _ | d
    · simp only [specRows, hdate, hsc0, hq0, hup0]
    · simp only [specRows, hdate, hsc0, hq0, hup0]
      have hscok : sc ≠ "" ∧ sc ≠ "nan" :=
        stockCodeOk_some.mp (by rw [hsc0] at hok; exact hok)
      rw [if_pos hscok]
      have hdmem : d ∈ cal := hcov d (List.mem_filterMap.mpr ⟨r, hr, hdate⟩)
      have hscmem : sc ∈ dimProduct raw := by
        unfold dimProduct
        rw [List.mem_dedup]
        exact List.mem_filterMap.mpr ⟨r, List.mem_filter.mpr ⟨hr, hok⟩, hsc0⟩
      have hkmem : customerKey r ∈ (dimCustomer raw).map DimCustomerRow.customer_id := by
        rw [dimCustomer_keys]
        exact List.mem_dedup.mpr (List.mem_map_of_mem _ hr)
      rcases List.mem_map.mp hkmem with ⟨cu0, hcu0, hk0⟩
      exact join_collapse cal (dimProduct raw) (dimCustomer raw) hnd
        (List.nodup_dedup _) (by rw [dimCustomer_keys]; exact List.nodup_dedup _)
        d sc (customerKey r) hdmem hscmem cu0 hcu0 hk0
        (fun c p kk => ⟨r.invoice_no, p, kk, c, q, up, (q : ℚ) * up⟩)
  · rw [if_neg hw]
    have hspec0 : specRows r = [] := by
      rcases hdate : r.invoice_date with _ | d
      · simp only [specRows, hdate]
      rcases hsc0 : r.stock_code with _ | sc
      · simp only [specRows, hdate, hsc0]
      rcases hq0 : r.qty with _ | q
      · simp only [specRows, hdate, hsc0, hq0]
      rcases hup0 : r.unit_price_gbp with _ | up
      · simp only [specRows, hdate, hsc0, hq0, hup0]
      · simp only [specRows, hdate, hsc0, hq0, hup0]
        rw [if_neg]
        intro hcon
        apply hw
        unfold fctWhere
        rw [hsc0, hq0, hup0]
        simp [stockCodeOk, hcon.1, hcon.2]
    rw [hspec0]

/-- C10: with all three dimensions built from the same snapshot, the fact
builder's inner joins exclude nothing beyond the explicit row filters —
`fct_sales` equals the filter-only description, and the validator's
`'Missing calendar'` and `'Missing customer'` orphan counts are zero. -/
theorem c10_joins_filter_nothing (raw : List RawRetailRow) (cal : List Date)
    (Hv : ∀ d ∈ obsDates raw, d.valid) (hcal : dimCalendar raw = some cal) :
    fctSalesPipeline raw cal = fctSalesFiltered raw ∧
      missingCalendarCount (fctSalesPipeline raw cal) cal = 0 ∧
      missingCustomerCount (fctSalesPipeline raw cal) (dimCustomer raw) = 0 := by
  refine ⟨fctSalesPipeline_eq_filtered raw Hv hcal, ?_, ?_⟩
  · unfold missingCalendarCount
    rw [List.length_eq_zero, List.filter_eq_nil_iff]
    intro f hf
    have h := (mem_fctSales hf).1
    simp [h]
  · unfold missingCustomerCount
    rw [List.length_eq_zero, List.filter_eq_nil_iff]
    intro f hf
    have h := (mem_fctSales hf).2.2
    simp [h]

theorem c10_witness :
    dimCalendar wRaw = some wCal ∧
      fctSalesPipeline wRaw wCal = fctSalesFiltered wRaw ∧
      missingCalendarCount (fctSalesPipeline wRaw wCal) wCal = 0 := by
  have h := c10_joins_filter_nothing wRaw wCal (by decide) (by decide)
  exact ⟨by decide, h.1, h.2.1⟩

/-- C5: a staging snapshot with a NULL customer id yields the sentinel
`dim_customer` row `(-1, 'UNKNOWN')` — the country is the literal regardless
of the row's own country — and every fact-eligible staged row with a NULL
customer id lands in `fct_sales` with `customer_id = -1` instead of being
dropped by the customer join. -/
theorem c5_null_customer (raw : List RawRetailRow) (cal : List Date)
    (Hv : ∀ d ∈ obsDates raw, d.valid) (hcal : dimCalendar raw = some cal)
    (r : RawRetailRow) (hr : r ∈ raw) (hnull : r.customer_id = none) :
    (⟨-1, some "UNKNOWN"⟩ : DimCustomerRow) ∈ dimCustomer raw ∧
      ∀ row ∈ specRows r, row ∈ fctSalesPipeline raw cal ∧ row.customer_id = -1 := by
  have hkey : customerKey r = -1 := by unfold customerKey; rw [hnull]; rfl
  constructor
  · have hmem : (-1 : Int) ∈ (raw.map customerKey).dedup :=
      List.mem_dedup.mpr (hkey ▸ List.mem_map_of_mem customerKey hr)
    unfold dimCustomer
    refine List.mem_map.mpr ⟨-1, hmem, ?_⟩
    simp
  · intro row hrow
    refine ⟨?_, ?_⟩
    · rw [fctSalesPipeline_eq_filtered raw Hv hcal]
      exact List.mem_flatMap.mpr ⟨r, hr, hrow⟩
    · rcases hdate : r.invoice_date with _ | d
      · simp [specRows, hdate] at hrow
      rcases hsc0 : r.stock_code with _ | sc
      · simp [specRows, hdate, hsc0] at hrow
      rcases hq0 : r.qty with _ | q
      · simp [specRows, hdate, hsc0, hq0] at hrow
      rcases hup0 : r.unit_price_gbp with _ | up
      · simp [specRows, hdate, hsc0, hq0, hup0] at hrow
      · simp only [specRows, hdate, hsc0, hq0, hup0] at hrow
        split at hrow
        · have h2 := List.mem_singleton.mp hrow
          subst h2
          exact hkey
        · cases hrow

theorem c5_witness :
    (⟨-1, some "UNKNOWN"⟩ : DimCustomerRow) ∈ dimCustomer wRaw ∧
      wFctRow ∈ fctSalesPipeline wRaw wCal ∧ wFctRow.customer_id = -1 := by
  have h := c5_null_customer wRaw wCal (by decide) (by decide) wRow (by decide) (by decide)
  have hrow : wFctRow ∈ specRows wRow := by
    simp [specRows, wRow, wFctRow, customerKey]
    norm_num
  exact ⟨h.1, (h.2 wFctRow hrow).1, (h.2 wFctRow hrow).2⟩

/-- The `CASE`-based invoice projection inside the orders metric equals
filtering the non-null invoice numbers by the cancellation prefix test. -/
theorem filterMap_case_invoice
    (grp : List (FctSalesRow × FctSalesEurRow × DimCustomerRow)) :
    (grp.filterMap fun t =>
        match t.1.invoice_no with
        | some s => if likeC s then none else some s
        | none => none) =
      (grp.filterMap fun t => t.1.invoice_no).filter fun s => !(likeC s) := by
  induction grp with
  | nil => rfl
  | cons t ts ih =>
    rcases hinv : t.1.invoice_no with _ | s
    · simp [List.filterMap_cons, hinv, ih]
    · cases hc : likeC s <;>
        simp [List.filterMap_cons, List.filter_cons, hinv, hc, ih]

/-- C4: in every `agg_country_day` row, `orders` counts the distinct invoice
numbers of the grouped rows that do not start with the cancellation prefix
`'C'`, `items` counts all grouped line rows (cancellations included), and
`net_qty`/`net_revenue` are the plain signed sums over the group, so
cancellation rows subtract. -/
theorem c4_agg_metrics (fct : List FctSalesRow) (fe : List FctSalesEurRow)
    (cust : List DimCustomerRow) (cal : List Date) (a : AggRow)
    (ha : a ∈ aggCountryDay fct fe cust cal) :
    a.orders = (((groupOf (aggJoined fct fe cust cal)
          (a.date, a.country)).filterMap fun t => t.1.invoice_no).filter
        fun s => !(likeC s)).dedup.length ∧
      a.items = (groupOf (aggJoined fct fe cust cal) (a.date, a.country)).length ∧
      a.net_qty = ((groupOf (aggJoined fct fe cust cal)
          (a.date, a.country)).map fun t => t.1.qty).sum ∧
      a.net_revenue_gbp = ((groupOf (aggJoined fct fe cust cal)
          (a.date, a.country)).map fun t => t.1.gross_amount_gbp).sum := by
  simp only [aggCountryDay] at ha
  rcases List.mem_map.mp ha with ⟨k, hk, rfl⟩
  refine ⟨?_, rfl, rfl, rfl⟩
  show ordersOf (groupOf (aggJoined fct fe cust cal) k) = _
  unfold ordersOf
  rw [filterMap_case_invoice]

theorem c4_witness :
    vAggRow ∈ aggCountryDay vFct vFe vCust vCal ∧
      vAggRow.orders = (((groupOf (aggJoined vFct vFe vCust vCal)
          (vAggRow.date, vAggRow.country)).filterMap fun t => t.1.invoice_no).filter
        fun s => !(likeC s)).dedup.length ∧
      vAggRow.items = (groupOf (aggJoined vFct vFe vCust vCal)
        (vAggRow.date, vAggRow.country)).length := by
  have hmem : vAggRow ∈ aggCountryDay vFct vFe vCust vCal := by
    simp [aggCountryDay, aggJoined, vFct, vFe, vCust, vCal, vAggRow, aggKey4,
      sqlEqOpt, groupOf, ordersOf, likeC]
  have h := c4_agg_metrics vFct vFe vCust vCal vAggRow hmem
  exact ⟨hmem, h.1, h.2.1⟩

theorem ordinal_pos (d : Date) (hv : d.valid) : 1 ≤ d.ordinal := by
  unfold Date.ordinal
  have := hv.2.2.1
  omega

/-- With distinct observation dates, the left join pairs every day of the
series with the (at most one) observation of that day. -/
theorem leftJoinFx_eq_map (series : List Date) (fx : List RawFxRow)
    (hnd : (fx.map (·.date)).Nodup) :
    leftJoinFx series fx = series.map fun d => (d, obsRate fx d) := by
  unfold leftJoinFx
  induction series with
  | nil => rfl
  | cons d ds ih =>
    rw [List.flatMap_cons, List.map_cons, ih]
    have hhead : (match fx.filter (fun o => o.date == d) with
        | [] => [(d, (none : Option ℚ))]
        | l => l.map fun o => (d, o.gbp_per_eur)) = [(d, obsRate fx d)] := by
      unfold obsRate
      cases hf : fx.filter (fun o => o.date == d) with
      | nil => rfl
      | cons o rest =>
        have hsub : List.Sublist ((fx.filter (fun o => o.date == d)).map (·.date))
            (fx.map (·.date)) := (List.filter_sublist fx).map _
        have hnd2 := hnd.sublist hsub
        rw [hf] at hnd2
        cases rest with
        | nil => rfl
        | cons o2 rest2 =>
          exfalso
          have ho : o ∈ fx.filter (fun o => o.date == d) := by
            rw [hf]; exact List.mem_cons_self _ _
          have ho2 : o2 ∈ fx.filter (fun o => o.date == d) := by
            rw [hf]; exact List.mem_cons_of_mem _ (List.mem_cons_self _ _)
          have hd1 : o.date = d := by
            have := (List.mem_filter.mp ho).2; simpa using this
          have hd2 : o2.date = d := by
            have := (List.mem_filter.mp ho2).2; simpa using this
          rw [List.map_cons, List.map_cons, List.nodup_cons] at hnd2
          exact hnd2.1 (by rw [hd1, hd2]; exact List.mem_cons_self _ _)
    rw [hhead]
    rfl

/-- One step of the forward-fill recurrence: the latest non-null rate in
`[lo, d]` is the day-`d` observation when it exists and is non-null, and the
latest in `[lo, d-1]` otherwise. -/
theorem windowRate_step (fx : List RawFxRow)
    (hnd : (fx.map fun o => o.date.ordinal).Nodup)
    (hval : ∀ o ∈ fx, o.date.valid)
    (lo : Nat) (d : Date) (hdv : d.valid) (hlo : lo ≤ d.ordinal) :
    windowRate fx lo d.ordinal =
      match obsRate fx d with
      | some r => some r
      | none => windowRate fx lo (d.ordinal - 1) := by
  have hpos := ordinal_pos d hdv
  have hinj : ∀ y ∈ fx, ∀ z ∈ fx, y.date.ordinal = z.date.ordinal → y = z :=
    List.inj_on_of_nodup_map hnd
  rcases hf : fx.filter (fun o => o.date == d) with _ | ⟨o, rest⟩
  · -- no observation dated d at all
    have hnone : ∀ o ∈ fx, o.date.ordinal ≠ d.ordinal := by
      intro o ho hord
      have heq : o.date = d := ordinal_inj (hval o ho) hdv hord
      have : o ∈ fx.filter (fun o => o.date == d) :=
        List.mem_filter.mpr ⟨ho, by simp [heq]⟩
      rw [hf] at this
      cases this
    unfold obsRate
    rw [hf]
    unfold windowRate windowObs
    have hfeq : (fx.filter fun o =>
          o.gbp_per_eur.isSome && decide (lo ≤ o.date.ordinal) &&
            decide (o.date.ordinal ≤ d.ordinal)) =
        fx.filter fun o =>
          o.gbp_per_eur.isSome && decide (lo ≤ o.date.ordinal) &&
            decide (o.date.ordinal ≤ d.ordinal - 1) := by
      apply List.filter_congr
      intro o ho
      have := hnone o ho
      congr 1
      rw [decide_eq_decide]
      omega
    rw [hfeq]
  · -- o is the unique observation dated d
    have ho : o ∈ fx.filter (fun o => o.date == d) := by
      rw [hf]; exact List.mem_cons_self _ _
    have hof : o ∈ fx := (List.mem_filter.mp ho).1
    have hod : o.date = d := by
      have := (List.mem_filter.mp ho).2; simpa using this
    have huniq : ∀ y ∈ fx, y.date.ordinal = d.ordinal → y = o := by
      intro y hy hord
      exact hinj y hy o hof (by rw [hord, hod])
    unfold obsRate
    rw [hf]
    rcases hr : o.gbp_per_eur with _ | r
    · -- observation present but its rate is NULL: the window ignores it
      unfold windowRate windowObs
      have hfeq : (fx.filter fun o =>
            o.gbp_per_eur.isSome && decide (lo ≤ o.date.ordinal) &&
              decide (o.date.ordinal ≤ d.ordinal)) =
          fx.filter fun o =>
            o.gbp_per_eur.isSome && decide (lo ≤ o.date.ordinal) &&
              decide (o.date.ordinal ≤ d.ordinal - 1) := by
        apply List.filter_congr
        intro y hy
        by_cases hyd : y.date.ordinal = d.ordinal
        · have hyo : y = o := huniq y hy hyd
          rw [hyo, hr]
          simp
        · congr 1
          rw [decide_eq_decide]
          omega
      rw [hfeq]
      simp [hr]
    · -- non-null day-d observation: it is the window's argmax
      have hmemW : o ∈ fx.filter fun y =>
          y.gbp_per_eur.isSome && decide (lo ≤ y.date.ordinal) &&
            decide (y.date.ordinal ≤ d.ordinal) := by
        refine List.mem_filter.mpr ⟨hof, ?_⟩
        rw [hr, hod]
        simp [hlo]
      unfold windowRate windowObs
      rcases harg : (fx.filter fun y =>
          y.gbp_per_eur.isSome && decide (lo ≤ y.date.ordinal) &&
            decide (y.date.ordinal ≤ d.ordinal)).argmax
          (fun o => o.date.ordinal) with _ | m
      · rw [List.argmax_eq_none] at harg
        rw [harg] at hmemW
        cases hmemW
      · have hm := List.argmax_mem harg
        have hmfx : m ∈ fx := (List.mem_filter.mp hm).1
        have hmle : m.date.ordinal ≤ d.ordinal := by
          have := (List.mem_filter.mp hm).2
          simp only [Bool.and_eq_true, decide_eq_true_eq] at this
          exact this.2
        have hole : o.date.ordinal ≤ m.date.ordinal :=
          List.le_of_mem_argmax (f := fun o : RawFxRow => o.date.ordinal) hmemW harg
        have hmo : m = o := huniq m hmfx (by rw [hod] at hole; omega)
        rw [harg, hmo]
        simp [hr]

/-- The forward-fill scan started with the latest rate before the series
computes, at every day of the series, the latest non-null rate in the window
from `lo` to that day. -/
theorem forwardFill_spec (fx : List RawFxRow)
    (hnd : (fx.map fun o => o.date.ordinal).Nodup)
    (hval : ∀ o ∈ fx, o.date.valid) (lo : Nat) :
    ∀ (n : Nat) (s : Date), s.valid → lo ≤ s.ordinal →
      forwardFill (windowRate fx lo (s.ordinal - 1))
          ((dateSeries s n).map fun d => (d, obsRate fx d)) =
        (dateSeries s n).map fun d => (d, windowRate fx lo d.ordinal) := by
  intro n
  induction n with
  | zero => intro s _ _; rfl
  | succ k ih =>
    intro s hsv hlo
    rw [dateSeries]
    simp only [List.map_cons]
    have hstep := windowRate_step fx hnd hval lo s hsv hlo
    have hnext : s.next.ordinal - 1 = s.ordinal := by
      rw [ordinal_next hsv]
      omega
    have htail := ih s.next (next_valid hsv) (by rw [ordinal_next hsv]; omega)
    rw [hnext] at htail
    rcases hobs : obsRate fx s with _ | r
    · rw [hobs] at hstep
      simp only [forwardFill]
      rw [← show windowRate fx lo s.ordinal = windowRate fx lo (s.ordinal - 1) from hstep]
      rw [htail]
    · rw [hobs] at hstep
      simp only [forwardFill]
      rw [← show windowRate fx lo s.ordinal = some r from hstep]
      rw [htail]

/-- Looking a date up in the filtered fill misses every date outside the
series. -/
theorem lookup_filterMap_not_mem (g : Date → Option ℚ) (d : Date) :
    ∀ M : List Date, d ∉ M →
      List.lookup d (M.filterMap fun x =>
        match g x with | some r => some (x, r) | none => none) = none := by
  intro M
  induction M with
  | nil => intro _; rfl
  | cons x xs ih =>
    intro hd
    have hxd : ¬(d = x) := fun h => hd (h ▸ List.mem_cons_self _ _)
    have hd2 : d ∉ xs := fun h => hd (List.mem_cons_of_mem _ h)
    rcases hg : g x with _ | r
    · simp only [List.filterMap_cons, hg]
      exact ih hd2
    · simp only [List.filterMap_cons, hg, List.lookup_cons]
      rw [show (d == x) = false by simp [hxd]]
      exact ih hd2

/-- Looking a series date up in the filtered fill returns exactly the filled
value of that date. -/
theorem lookup_filterMap_fill (g : Date → Option ℚ) (d : Date) :
    ∀ L : List Date, L.Nodup → d ∈ L →
      List.lookup d (L.filterMap fun x =>
        match g x with | some r => some (x, r) | none => none) = g d := by
  intro L
  induction L with
  | nil => intro _ hd; cases hd
  | cons x xs ih =>
    intro hL hd
    rw [List.nodup_cons] at hL
    rcases List.mem_cons.mp hd with rfl | hd2
    · rcases hg : g d with _ | r
      · simp only [List.filterMap_cons, hg]
        exact lookup_filterMap_not_mem g d xs hL.1
      · simp only [List.filterMap_cons, hg, List.lookup_cons]
        simp
    · have hxd : ¬(d = x) := fun h => hL.1 (h ▸ hd2)
      rcases hg : g x with _ | r
      · simp only [List.filterMap_cons, hg]
        exact ih hL.2 hd2
      · simp only [List.filterMap_cons, hg, List.lookup_cons]
        rw [show (d == x) = false by simp [hxd]]
        exact ih hL.2 hd2

/-- C2 counterexample: the fact table's only date is day 10, the sole FX
observation (non-null, rate 2) is dated day 5 — at or before day 10, so the
claim demands a `daily_fx_rates` row for day 10 carrying rate 2 — yet the
code's daily table is empty: observations before the sales minimum date never
join the generated series, so nothing is forward-filled from them. -/
theorem c2_counterexample :
    dailyFxRates cFct cFx = some [] ∧
      (⟨⟨0, 1, 5⟩, some 2⟩ : RawFxRow) ∈ cFx ∧
      Date.ordinal ⟨0, 1, 5⟩ ≤ Date.ordinal ⟨0, 1, 10⟩ ∧
      minDate? (cFct.map (·.date)) = some ⟨0, 1, 10⟩ ∧
      maxDate? (cFct.map (·.date)) = some ⟨0, 1, 10⟩ :=
  ⟨rfl, List.mem_singleton.mpr rfl, by decide, rfl, rfl⟩

/-- C2 (amended): for every day `d` in the sales fact's date range such that
`raw_fx_rates` holds at least one non-null observation dated in the window
from the sales minimum date to `d`, `daily_fx_rates` has the row `(d, r)`
where `r` is the most recently observed non-null rate in that window
(forward-fill of the last seen value, never interpolation or look-ahead);
days with no such observation — in particular days before the first
observation inside the range — are absent.  (The original claim's window
`(-∞, d]` is cut off below at the sales minimum date: observations dated
before the range never enter the joined series.) -/
theorem c2_forward_fill (fct : List FctSalesRow) (fx : List RawFxRow)
    (dfx : List (Date × ℚ)) (dmin dmax : Date)
    (hfv : ∀ f ∈ fct, f.date.valid)
    (hnd : (fx.map fun o => o.date.ordinal).Nodup)
    (hval : ∀ o ∈ fx, o.date.valid)
    (hmin : minDate? (fct.map (·.date)) = some dmin)
    (hmax : maxDate? (fct.map (·.date)) = some dmax)
    (hdfx : dailyFxRates fct fx = some dfx)
    (d : Date) (hdv : d.valid) (h1 : dmin.ordinal ≤ d.ordinal)
    (h2 : d.ordinal ≤ dmax.ordinal) :
    List.lookup d dfx = windowRate fx dmin.ordinal d.ordinal := by
  have hdminv : dmin.valid := by
    have hmem : dmin ∈ fct.map (·.date) :=
      List.argmin_mem (show dmin ∈ (fct.map (·.date)).argmin Date.ordinal from hmin)
    rcases List.mem_map.mp hmem with ⟨f, hf, hfd⟩
    exact hfd ▸ hfv f hf
  have hdates_nodup : (fx.map (·.date)).Nodup := by
    apply List.Nodup.of_map Date.ordinal
    rw [List.map_map]
    exact hnd
  unfold dailyFxRates at hdfx
  rw [hmin, hmax] at hdfx
  have hdfx2 := (Option.some.inj hdfx).symm
  rw [leftJoinFx_eq_map _ _ hdates_nodup] at hdfx2
  have hinit : windowRate fx dmin.ordinal (dmin.ordinal - 1) = none := by
    have hlo1 := ordinal_pos dmin hdminv
    unfold windowRate windowObs
    rw [List.filter_eq_nil_iff.mpr ?_]
    · rfl
    · intro o _
      simp only [Bool.and_eq_true, decide_eq_true_eq, not_and]
      intro _ hle
      omega
  rw [← hinit, forwardFill_spec fx hnd hval dmin.ordinal _ dmin hdminv (le_refl _)]
    at hdfx2
  rw [List.filterMap_map] at hdfx2
  have hdmem : d ∈ dateSeries dmin (dmax.ordinal + 1 - dmin.ordinal) := by
    rw [mem_dateSeries_iff _ dmin hdminv d hdv]
    omega
  rw [hdfx2]
  exact lookup_filterMap_fill (fun x => windowRate fx dmin.ordinal x.ordinal) d
    (dateSeries dmin (dmax.ordinal + 1 - dmin.ordinal))
    (dateSeries_nodup _ dmin hdminv) hdmem

theorem c2_witness :
    dailyFxRates wFct2 wFx2 = some wDfx ∧
      List.lookup (⟨0, 1, 3⟩ : Date) wDfx =
        windowRate wFx2 (Date.ordinal ⟨0, 1, 1⟩) (Date.ordinal ⟨0, 1, 3⟩) ∧
      List.lookup (⟨0, 1, 3⟩ : Date) wDfx = some (85/100) := by
  have hdfx : dailyFxRates wFct2 wFx2 = some wDfx := rfl
  have h := c2_forward_fill wFct2 wFx2 wDfx ⟨0, 1, 1⟩ ⟨0, 1, 6⟩ (by decide)
    (by decide) (by decide) rfl rfl hdfx ⟨0, 1, 3⟩ (by decide) (by decide) (by decide)
  exact ⟨hdfx, h, rfl⟩

/-- `fct_sales_eur` written with the named converted-row constructor. -/
theorem fctSalesEur_eq (fct : List FctSalesRow) (daily : List (Date × ℚ)) :
    fctSalesEur fct daily =
      fct.flatMap fun f =>
        daily.flatMap fun p =>
          if f.date = p.1 then [convRow f p.2] else [] := rfl

theorem ite_singleton_flatMap {α β : Type} (P : Prop) [Decidable P] (a : α)
    (g : α → List β) :
    ((if P then [a] else []).flatMap g) = if P then g a else [] := by
  by_cases hP : P <;> simp [hP]

/-- The innermost calendar join of the aggregation collapses to its one
matching day. -/
theorem flatMap_ite_ite_single {β : Type} (cal : List Date) (hncal : cal.Nodup)
    (d : Date) (hd : d ∈ cal) (P Q : Prop) [Decidable P] [Decidable Q] (t : β) :
    (cal.flatMap fun c =>
        if P then if Q then (if d = c then [t] else []) else [] else []) =
      if P then if Q then [t] else [] else [] := by
  by_cases hP : P
  · by_cases hQ : Q
    · simp only [if_pos hP, if_pos hQ]
      have hcol := flatMap_eq_of_key_nodup cal id (by simpa using hncal) d hd
        (fun c => if d = c then [t] else [])
        (by
          intro c hc hne
          show (if d = c then [t] else []) = []
          rw [if_neg]
          exact fun h => hne h.symm)
      rw [hcol]
      show (if d = d then [t] else []) = [t]
      rw [if_pos rfl]
    · simp only [if_pos hP, if_neg hQ]
      exact List.flatMap_eq_nil_iff.mpr fun _ _ => rfl
  · simp only [if_neg hP]
    exact List.flatMap_eq_nil_iff.mpr fun _ _ => rfl

/-- The customer join of the aggregation collapses to the one matching
customer row. -/
theorem flatMap_cust_single {β : Type} (cust : List DimCustomerRow)
    (hncust : (cust.map DimCustomerRow.customer_id).Nodup) (k : Int)
    (cu0 : DimCustomerRow) (hcu0 : cu0 ∈ cust) (hk : cu0.customer_id = k)
    (P : Prop) [Decidable P] (t : DimCustomerRow → β) :
    (cust.flatMap fun cu =>
        if P then if k = cu.customer_id then [t cu] else [] else []) =
      if P then [t cu0] else [] := by
  by_cases hP : P
  · simp only [if_pos hP]
    have hcol := flatMap_eq_of_key_nodup cust DimCustomerRow.customer_id hncust cu0 hcu0
      (fun cu => if k = cu.customer_id then [t cu] else [])
      (by
        intro cu hcu hne
        show (if k = cu.customer_id then [t cu] else []) = []
        rw [if_neg]
        intro h
        rw [hk] at hne
        exact hne h.symm)
    rw [hcol]
    show (if k = cu0.customer_id then [t cu0] else []) = [t cu0]
    rw [if_pos hk.symm]
  · simp only [if_neg hP]
    exact List.flatMap_eq_nil_iff.mpr fun _ _ => rfl

/-- The aggregation's four-column join condition between a fact row with a
non-null invoice and a converted row holds exactly when their sales keys
agree. -/
theorem aggKey4_convRow (f f2 : FctSalesRow) (r : ℚ)
    (hinv : f.invoice_no.isSome) :
    aggKey4 f (convRow f2 r) = true ↔ salesKey f = salesKey f2 := by
  obtain ⟨a, ha⟩ := Option.isSome_iff_exists.mp hinv
  unfold aggKey4 convRow sqlEqOpt salesKey
  rcases hb : f2.invoice_no with _ | b
  · rw [ha]
    simp [Prod.ext_iff]
  · rw [ha]
    simp only [Bool.and_eq_true, beq_iff_eq, Prod.mk.injEq, Option.some.injEq]
    constructor
    · rintro ⟨⟨⟨h1, h2⟩, h3⟩, h4⟩
      exact ⟨h1, h2, h3, h4⟩
    · rintro ⟨h1, h2, h3, h4⟩
      exact ⟨⟨⟨h1, h2⟩, h3⟩, h4⟩

/-- Closed form of `daily_fx_rates`: the generated day series, each day paired
with the latest non-null observation in the window from the sales minimum
date, days without one dropped. -/
theorem dailyFxRates_eq (fct : List FctSalesRow) (fx : List RawFxRow)
    (dfx : List (Date × ℚ)) (dmin dmax : Date)
    (hfv : ∀ f ∈ fct, f.date.valid)
    (hnd : (fx.map fun o => o.date.ordinal).Nodup)
    (hval : ∀ o ∈ fx, o.date.valid)
    (hmin : minDate? (fct.map (·.date)) = some dmin)
    (hmax : maxDate? (fct.map (·.date)) = some dmax)
    (hdfx : dailyFxRates fct fx = some dfx) :
    dfx = (dateSeries dmin (dmax.ordinal + 1 - dmin.ordinal)).filterMap
      fun d =>
        match windowRate fx dmin.ordinal d.ordinal with
        | some r => some (d, r)
        | none => none := by
  have hdminv : dmin.valid := by
    have hmem : dmin ∈ fct.map (·.date) :=
      List.argmin_mem (show dmin ∈ (fct.map (·.date)).argmin Date.ordinal from hmin)
    rcases List.mem_map.mp hmem with ⟨f, hf, hfd⟩
    exact hfd ▸ hfv f hf
  have hdates_nodup : (fx.map (·.date)).Nodup := by
    apply List.Nodup.of_map Date.ordinal
    rw [List.map_map]
    exact hnd
  unfold dailyFxRates at hdfx
  rw [hmin, hmax] at hdfx
  have hdfx2 := (Option.some.inj hdfx).symm
  rw [leftJoinFx_eq_map _ _ hdates_nodup] at hdfx2
  have hinit : windowRate fx dmin.ordinal (dmin.ordinal - 1) = none := by
    have hlo1 := ordinal_pos dmin hdminv
    unfold windowRate windowObs
    rw [List.filter_eq_nil_iff.mpr ?_]
    · rfl
    · intro o _
      simp only [Bool.and_eq_true, decide_eq_true_eq, not_and]
      intro _ hle
      omega
  rw [← hinit, forwardFill_spec fx hnd hval dmin.ordinal _ dmin hdminv (le_refl _)]
    at hdfx2
  rw [List.filterMap_map] at hdfx2
  exact hdfx2

/-- The dates of the filtered fill are a sublist of the generating series. -/
theorem fill_keys_sublist (g : Date → Option ℚ) (L : List Date) :
    List.Sublist ((L.filterMap fun x =>
      match g x with | some r => some (x, r) | none => none).map Prod.fst) L := by
  induction L with
  | nil => simp
  | cons x xs ih =>
    rcases hg : g x with _ | r
    · simp only [List.filterMap_cons, hg]
      exact ih.cons _
    · simp only [List.filterMap_cons, hg, List.map_cons]
      exact ih.cons₂ _

/-- `daily_fx_rates` carries at most one row per day. -/
theorem dailyFxRates_keys_nodup (fct : List FctSalesRow) (fx : List RawFxRow)
    (dfx : List (Date × ℚ)) (dmin dmax : Date)
    (hfv : ∀ f ∈ fct, f.date.valid)
    (hnd : (fx.map fun o => o.date.ordinal).Nodup)
    (hval : ∀ o ∈ fx, o.date.valid)
    (hmin : minDate? (fct.map (·.date)) = some dmin)
    (hmax : maxDate? (fct.map (·.date)) = some dmax)
    (hdfx : dailyFxRates fct fx = some dfx) :
    (dfx.map Prod.fst).Nodup := by
  have hdminv : dmin.valid := by
    have hmem : dmin ∈ fct.map (·.date) :=
      List.argmin_mem (show dmin ∈ (fct.map (·.date)).argmin Date.ordinal from hmin)
    rcases List.mem_map.mp hmem with ⟨f, hf, hfd⟩
    exact hfd ▸ hfv f hf
  rw [dailyFxRates_eq fct fx dfx dmin dmax hfv hnd hval hmin hmax hdfx]
  exact (dateSeries_nodup _ dmin hdminv).sublist
    (fill_keys_sublist (fun d => windowRate fx dmin.ordinal d.ordinal) _)

/-- A filter-produced fact row's date is its staging row's invoice date. -/
theorem specRows_mem_date {r : RawRetailRow} {row : FctSalesRow}
    (h : row ∈ specRows r) : r.invoice_date = some row.date := by
  rcases hdate : r.invoice_date with _ | d
  · simp [specRows, hdate] at h
  rcases hsc : r.stock_code with _ | sc
  · simp [specRows, hdate, hsc] at h
  rcases hq : r.qty with _ | q
  · simp [specRows, hdate, hsc, hq] at h
  rcases hup : r.unit_price_gbp with _ | up
  · simp [specRows, hdate, hsc, hq, hup] at h
  · simp only [specRows, hdate, hsc, hq, hup] at h
    split at h
    · have h2 := List.mem_singleton.mp h
      subst h2
      rfl
    · cases h

/-- C1 (amended): for every pipeline run — provided every `fct_sales` row has
a non-null invoice number, no two `fct_sales` rows share the
`(invoice_no, stock_code, date, customer_id)` join key, every `fct_sales`
date is covered by `daily_fx_rates`, and the FX staging rows have distinct,
well-formed observation dates — the sum of `net_revenue_gbp` over
`agg_country_day` equals the sum of `gross_amount_gbp` over `fct_sales`
exactly: the date-by-country regrouping is lossless.  (Without the key
uniqueness the aggregation's self-join duplicates rows; without coverage it
drops them.) -/
theorem c1_revenue_reconciliation (raw : List RawRetailRow) (fx : List RawFxRow)
    (cal : List Date) (dfx : List (Date × ℚ))
    (Hv : ∀ d ∈ obsDates raw, d.valid)
    (hcal : dimCalendar raw = some cal)
    (hndfx : (fx.map fun o => o.date.ordinal).Nodup)
    (hvalfx : ∀ o ∈ fx, o.date.valid)
    (hdfx : dailyFxRates (fctSalesPipeline raw cal) fx = some dfx)
    (Hinv : ∀ f ∈ fctSalesPipeline raw cal, f.invoice_no.isSome)
    (Hkey : ((fctSalesPipeline raw cal).map salesKey).Nodup)
    (Hcov : ∀ f ∈ fctSalesPipeline raw cal, f.date ∈ dfx.map Prod.fst) :
    ((aggCountryDay (fctSalesPipeline raw cal)
        (fctSalesEur (fctSalesPipeline raw cal) dfx) (dimCustomer raw) cal).map
      (·.net_revenue_gbp)).sum =
      ((fctSalesPipeline raw cal).map (·.gross_amount_gbp)).sum := by
  obtain ⟨hncal, _, _⟩ := dimCalendar_covers Hv hcal
  have hncust : ((dimCustomer raw).map DimCustomerRow.customer_id).Nodup := by
    rw [dimCustomer_keys]
    exact List.nodup_dedup _
  have hfdv : ∀ f ∈ fctSalesPipeline raw cal, f.date.valid := by
    have heqf := fctSalesPipeline_eq_filtered raw Hv hcal
    intro f hf
    rw [heqf] at hf
    rcases List.mem_flatMap.mp hf with ⟨r, hr, hrow⟩
    exact Hv f.date (List.mem_filterMap.mpr ⟨r, hr, specRows_mem_date hrow⟩)
  have hdnd : (dfx.map Prod.fst).Nodup := by
    rcases hmin : minDate? ((fctSalesPipeline raw cal).map (·.date)) with _ | dmin
    · exfalso
      unfold dailyFxRates at hdfx
      rw [hmin] at hdfx
      rcases hmax : maxDate? ((fctSalesPipeline raw cal).map (·.date)) with _ | dmax <;>
        rw [hmax] at hdfx <;> exact Option.noConfusion hdfx
    rcases hmax : maxDate? ((fctSalesPipeline raw cal).map (·.date)) with _ | dmax
    · exfalso
      unfold dailyFxRates at hdfx
      rw [hmin, hmax] at hdfx
      exact Option.noConfusion hdfx
    exact dailyFxRates_keys_nodup _ fx dfx dmin dmax hfdv hndfx hvalfx hmin hmax hdfx
  have hjoin : ∀ f ∈ fctSalesPipeline raw cal,
      ((((fctSalesEur (fctSalesPipeline raw cal) dfx).flatMap fun x =>
        (dimCustomer raw).flatMap fun cu =>
          cal.flatMap fun c =>
            if aggKey4 f x = true then
              if f.customer_id = cu.customer_id then
                if f.date = c then [(f, x, cu)] else []
              else []
            else []).map fun t => t.1.gross_amount_gbp).sum) =
        f.gross_amount_gbp := by
    intro f hf
    have hf2 : f ∈ fctSales raw cal (dimProduct raw) (dimCustomer raw) := hf
    obtain ⟨hdcal, _, hkmem⟩ := mem_fctSales hf2
    rcases List.mem_map.mp hkmem with ⟨cu0, hcu0, hk0⟩
    rcases List.mem_map.mp (Hcov f hf) with ⟨pF, hpF, hpFd⟩
    have h1 : ((fctSalesEur (fctSalesPipeline raw cal) dfx).flatMap fun x =>
        (dimCustomer raw).flatMap fun cu =>
          cal.flatMap fun c =>
            if aggKey4 f x = true then
              if f.customer_id = cu.customer_id then
                if f.date = c then [(f, x, cu)] else []
              else []
            else []) =
        (fctSalesEur (fctSalesPipeline raw cal) dfx).flatMap fun x =>
          (dimCustomer raw).flatMap fun cu =>
            if aggKey4 f x = true then
              if f.customer_id = cu.customer_id then [(f, x, cu)] else []
            else [] := by
      apply List.flatMap_congr
      intro x _
      apply List.flatMap_congr
      intro cu _
      exact flatMap_ite_ite_single cal hncal f.date hdcal _ _ _
    have h2 : ((fctSalesEur (fctSalesPipeline raw cal) dfx).flatMap fun x =>
        (dimCustomer raw).flatMap fun cu =>
          if aggKey4 f x = true then
            if f.customer_id = cu.customer_id then [(f, x, cu)] else []
          else []) =
        (fctSalesEur (fctSalesPipeline raw cal) dfx).flatMap fun x =>
          if aggKey4 f x = true then [(f, x, cu0)] else [] := by
      apply List.flatMap_congr
      intro x _
      exact flatMap_cust_single (dimCustomer raw) hncust f.customer_id cu0 hcu0 hk0 _ _
    have h3 : ((fctSalesEur (fctSalesPipeline raw cal) dfx).flatMap fun x =>
        if aggKey4 f x = true then [(f, x, cu0)] else []) =
        [(f, convRow f pF.2, cu0)] := by
      rw [fctSalesEur_eq, List.flatMap_assoc]
      have hout := flatMap_eq_of_key_nodup (fctSalesPipeline raw cal) salesKey Hkey f hf
        (fun f2 => (dfx.flatMap fun p =>
            if f2.date = p.1 then [convRow f2 p.2] else []).flatMap
          fun x => if aggKey4 f x = true then [(f, x, cu0)] else [])
        (by
          intro f2 hf2b hne
          show ((dfx.flatMap fun p =>
              if f2.date = p.1 then [convRow f2 p.2] else []).flatMap
            fun x => if aggKey4 f x = true then [(f, x, cu0)] else []) = []
          rw [List.flatMap_assoc]
          refine List.flatMap_eq_nil_iff.mpr fun p hp => ?_
          rw [ite_singleton_flatMap]
          by_cases hc : f2.date = p.1
          · rw [if_pos hc]
            show (if aggKey4 f (convRow f2 p.2) = true then
                [(f, convRow f2 p.2, cu0)] else []) = []
            rw [if_neg]
            intro hk4
            exact hne (((aggKey4_convRow f f2 p.2 (Hinv f hf)).mp hk4).symm)
          · rw [if_neg hc])
      rw [hout]
      show ((dfx.flatMap fun p =>
          if f.date = p.1 then [convRow f p.2] else []).flatMap
        fun x => if aggKey4 f x = true then [(f, x, cu0)] else []) =
        [(f, convRow f pF.2, cu0)]
      rw [List.flatMap_assoc]
      have hcong : ∀ p ∈ dfx, ((if f.date = p.1 then [convRow f p.2] else []).flatMap
          fun x => if aggKey4 f x = true then [(f, x, cu0)] else []) =
          (if f.date = p.1 then [(f, convRow f p.2, cu0)] else []) := by
        intro p hp
        rw [ite_singleton_flatMap]
        by_cases hc : f.date = p.1
        · rw [if_pos hc, if_pos hc]
          show (if aggKey4 f (convRow f p.2) = true then
              [(f, convRow f p.2, cu0)] else []) = [(f, convRow f p.2, cu0)]
          rw [if_pos ((aggKey4_convRow f f p.2 (Hinv f hf)).mpr rfl)]
        · rw [if_neg hc, if_neg hc]
      rw [List.flatMap_congr hcong]
      have hpFcol := flatMap_eq_of_key_nodup dfx Prod.fst hdnd pF hpF
        (fun p => if f.date = p.1 then [(f, convRow f p.2, cu0)] else [])
        (by
          intro p hp hne
          show (if f.date = p.1 then [(f, convRow f p.2, cu0)] else []) = []
          rw [if_neg]
          intro h
          exact hne (by rw [← h]; exact hpFd.symm))
      rw [hpFcol]
      show (if f.date = pF.1 then [(f, convRow f pF.2, cu0)] else []) =
        [(f, convRow f pF.2, cu0)]
      rw [if_pos hpFd.symm]
    rw [h1, h2, h3]
    simp
  have hstep2 : ((aggJoined (fctSalesPipeline raw cal)
      (fctSalesEur (fctSalesPipeline raw cal) dfx) (dimCustomer raw) cal).map
        fun t => t.1.gross_amount_gbp).sum =
      ((fctSalesPipeline raw cal).map (·.gross_amount_gbp)).sum := by
    unfold aggJoined
    rw [sum_map_flatMap]
    exact congrArg List.sum (List.map_congr_left hjoin)
  have hstep1 : ((aggCountryDay (fctSalesPipeline raw cal)
      (fctSalesEur (fctSalesPipeline raw cal) dfx) (dimCustomer raw) cal).map
        (·.net_revenue_gbp)).sum =
      ((aggJoined (fctSalesPipeline raw cal)
        (fctSalesEur (fctSalesPipeline raw cal) dfx) (dimCustomer raw) cal).map
          fun t => t.1.gross_amount_gbp).sum := by
    simp only [aggCountryDay]
    rw [List.map_map]
    exact sum_fiber
      (aggJoined (fctSalesPipeline raw cal)
        (fctSalesEur (fctSalesPipeline raw cal) dfx) (dimCustomer raw) cal)
      (fun t : FctSalesRow × FctSalesEurRow × DimCustomerRow =>
        (t.1.date, t.2.2.country))
      (fun t : FctSalesRow × FctSalesEurRow × DimCustomerRow =>
        t.1.gross_amount_gbp)
  rw [hstep1, hstep2]

/-- C1 counterexample: a staging snapshot holding the same line row twice
(pipeline completes, FX covers the one sales date) makes the aggregation's
four-column self-join match each fact row against both converted copies: the
aggregate revenue sum is 4 while the fact table's gross sum is 2 — the
regrouping is not lossless. -/
theorem c1_counterexample :
    dimCalendar cRawDup = some cCal ∧
      dailyFxRates (fctSalesPipeline cRawDup cCal) cFx1 = some [(⟨0, 1, 1⟩, 1)] ∧
      ((aggCountryDay (fctSalesPipeline cRawDup cCal)
          (fctSalesEur (fctSalesPipeline cRawDup cCal) [(⟨0, 1, 1⟩, 1)])
          (dimCustomer cRawDup) cCal).map (·.net_revenue_gbp)).sum = 4 ∧
      ((fctSalesPipeline cRawDup cCal).map (·.gross_amount_gbp)).sum = 2 ∧
      (4 : ℚ) ≠ 2 := by
  have hfct : fctSalesPipeline cRawDup cCal = [cFctRow, cFctRow] := by
    simp [fctSalesPipeline, fctSales, cRawDup, cRow, cCal, calendarDates, dateSeries,
      fctWhere, stockCodeOk, dimProduct, dimCustomer, customerKey, cFctRow,
      startOfMonth, calendarEnd, Date.pred, Date.next, Date.ordinal,
      daysBeforeYear, daysBeforeMonth, daysInMonth, daysInYear, isLeap]
  have hfe : fctSalesEur [cFctRow, cFctRow] [((⟨0, 1, 1⟩ : Date), (1 : ℚ))] =
      [cFeRow, cFeRow] := by
    simp [fctSalesEur, cFctRow, cFeRow]
  have hcust : dimCustomer cRawDup = [⟨1, some "UK"⟩] := by
    simp [dimCustomer, cRawDup, cRow, customerKey, mode]
    decide
  have hagg : aggCountryDay [cFctRow, cFctRow] [cFeRow, cFeRow] [⟨1, some "UK"⟩] cCal =
      [⟨⟨0, 1, 1⟩, some "UK", 1, 4, 4, 4, 4⟩] := by
    simp [aggCountryDay, aggJoined, cFctRow, cFeRow, cCal, calendarDates, dateSeries,
      startOfMonth, calendarEnd, Date.pred, Date.next, Date.ordinal,
      daysBeforeYear, daysBeforeMonth, daysInMonth, daysInYear, isLeap,
      aggKey4, sqlEqOpt, groupOf, ordersOf, likeC]
    norm_num
  refine ⟨by decide, ?_, ?_, ?_, by norm_num⟩
  · rw [hfct]
    rfl
  · rw [hfct, hfe, hcust, hagg]
    simp
  · rw [hfct]
    simp [cFctRow]
    norm_num

theorem c1_witness :
    dimCalendar wRaw = some wCal ∧
      dailyFxRates (fctSalesPipeline wRaw wCal) wFx =
        some [((⟨0, 12, 1⟩ : Date), (2 : ℚ))] ∧
      ((aggCountryDay (fctSalesPipeline wRaw wCal)
          (fctSalesEur (fctSalesPipeline wRaw wCal) [((⟨0, 12, 1⟩ : Date), (2 : ℚ))])
          (dimCustomer wRaw) wCal).map (·.net_revenue_gbp)).sum =
        ((fctSalesPipeline wRaw wCal).map (·.gross_amount_gbp)).sum :=
  ⟨by decide, rfl,
    c1_revenue_reconciliation wRaw wFx wCal [((⟨0, 12, 1⟩ : Date), (2 : ℚ))]
      (by decide) (by decide) (by decide) (by decide) rfl
      (by decide) (by decide) (by decide)⟩
